import Mathlib

/-!
# Verification of the S2Loop core (s2loop.cc)

A shallow embedding, in Lean 4, of the parts of `s2loop.cc` needed to settle
the frozen claims C1..C10: the wire codecs (lossless v1 and compressed), the
point-containment dispatch with its warm-up counter, the area computation,
the turning-angle engine with its canonical vertex ordering, loop inversion,
the `CompareBoundary` relation, and `FindVertex`.

External collaborators (the edge index, robust predicates, the rectangle
bounder, the point-compression codec, the bound codec) are out of scope of
the repository core and are modelled abstractly, as parameters or as
spec-modelled functions, exactly where the source calls out to them.
-/

namespace S2Spec

/-! ## Byte-level encoder/decoder model

The C++ `Encoder`/`Decoder` pair writes and reads a flat little-endian byte
stream.  A byte stream is modelled as a `List ℕ` whose elements are < 256 by
construction; `avail()` is the length of the remaining stream. -/

/-- `Encoder::put8`: one byte. -/
def put8 (v : ℕ) : List ℕ := [v % 256]

/-- `Encoder::put32`: four bytes, little-endian. -/
def put32 (v : ℕ) : List ℕ :=
  [v % 256, v / 256 % 256, v / 256 ^ 2 % 256, v / 256 ^ 3 % 256]

/-- One IEEE double is copied by `putn` as eight raw bytes, little-endian;
`v` is the 64-bit pattern of the double. -/
def put64 (v : ℕ) : List ℕ :=
  [v % 256, v / 256 % 256, v / 256 ^ 2 % 256, v / 256 ^ 3 % 256,
   v / 256 ^ 4 % 256, v / 256 ^ 5 % 256, v / 256 ^ 6 % 256, v / 256 ^ 7 % 256]

/-- `Decoder::get8`.  As in the C++ decoder, reads are unchecked; the caller
checks `avail()` first. -/
def get8 (d : List ℕ) : ℕ × List ℕ := (d.headD 0, d.tail)

/-- `Decoder::get32`, little-endian. -/
def get32 (d : List ℕ) : ℕ × List ℕ :=
  (d.getD 0 0 + 256 * d.getD 1 0 + 256 ^ 2 * d.getD 2 0 + 256 ^ 3 * d.getD 3 0,
   d.drop 4)

/-- Eight-byte read reassembling a 64-bit pattern, little-endian. -/
def get64 (d : List ℕ) : ℕ × List ℕ :=
  (d.getD 0 0 + 256 * d.getD 1 0 + 256 ^ 2 * d.getD 2 0 + 256 ^ 3 * d.getD 3 0 +
   256 ^ 4 * d.getD 4 0 + 256 ^ 5 * d.getD 5 0 + 256 ^ 6 * d.getD 6 0 +
   256 ^ 7 * d.getD 7 0,
   d.drop 8)

/-- `Varint32` encoding used by `put_varint32`: 7-bit groups, little-endian,
high bit of a byte marks continuation. -/
def putVarint (n : ℕ) : List ℕ :=
  if h : n < 128 then [n]
  else (n % 128 + 128) :: putVarint (n / 128)
  decreasing_by exact Nat.div_lt_self (by omega) (by omega)

/-- `get_varint32`: reads 7-bit groups until a byte without the continuation
bit; fails (`none`) on an empty remainder. -/
def getVarint : List ℕ → Option (ℕ × List ℕ)
  | [] => none
  | b :: rest =>
    if b < 128 then some (b, rest)
    else
      match getVarint rest with
      | none => none
      | some (m, rest') => some (b - 128 + 128 * m, rest')

/-- An `S2Point` as it appears on the wire: three doubles, each modelled by
its 64-bit pattern (the codec copies raw bytes and never does arithmetic on
them, so the bit pattern is the faithful value). -/
structure Pt64 where
  x : ℕ
  y : ℕ
  z : ℕ
  deriving DecidableEq, Repr

/-- A `Pt64` is well-formed when each pattern fits in 64 bits. -/
def Pt64.wf (p : Pt64) : Prop := p.x < 2 ^ 64 ∧ p.y < 2 ^ 64 ∧ p.z < 2 ^ 64

instance : DecidablePred Pt64.wf := fun p => by unfold Pt64.wf; infer_instance

/-- `putn(vertices_, sizeof(S2Point))` for one vertex. -/
def putPoint (p : Pt64) : List ℕ := put64 p.x ++ put64 p.y ++ put64 p.z

/-- Read one vertex (24 raw bytes). -/
def getPoint (d : List ℕ) : Pt64 × List ℕ :=
  let (x, d1) := get64 d
  let (y, d2) := get64 d1
  let (z, d3) := get64 d2
  (⟨x, y, z⟩, d3)

/-- Read `n` vertices (`getn` over the vertex array). -/
def getPoints : ℕ → List ℕ → List Pt64 × List ℕ
  | 0, d => ([], d)
  | n + 1, d =>
    let (p, d1) := getPoint d
    let (ps, d2) := getPoints n d1
    (p :: ps, d2)

/-- An `S2LatLngRect` as it appears on the wire: four doubles (lat lo/hi,
lng lo/hi), modelled by their 64-bit patterns. -/
structure WireRect where
  latLo : ℕ
  latHi : ℕ
  lngLo : ℕ
  lngHi : ℕ
  deriving DecidableEq, Repr

/-- A `WireRect` is well-formed when each pattern fits in 64 bits. -/
def WireRect.wf (r : WireRect) : Prop :=
  r.latLo < 2 ^ 64 ∧ r.latHi < 2 ^ 64 ∧ r.lngLo < 2 ^ 64 ∧ r.lngHi < 2 ^ 64

instance : DecidablePred WireRect.wf := fun r => by unfold WireRect.wf; infer_instance

/-- Modelled from the spec: the external bound codec (`S2LatLngRect::Encode`,
called by `S2Loop::Encode` as "encoded bound") is not part of this
repository core; the spec (§4.9) treats it as an opaque trailing record and
requires decoding to reject truncated input.  It is modelled as a one-byte
version tag (1) followed by the four coordinate doubles. -/
def encodeRect (r : WireRect) : List ℕ :=
  put8 1 ++ put64 r.latLo ++ put64 r.latHi ++ put64 r.lngLo ++ put64 r.lngHi

/-- Modelled from the spec: the external bound decoder; fails on truncated
input or a version tag other than 1. -/
def decodeRect (d : List ℕ) : Option (WireRect × List ℕ) :=
  if d.length < 33 then none
  else
    let (v, d0) := get8 d
    if v ≠ 1 then none
    else
      let (a, d1) := get64 d0
      let (b, d2) := get64 d1
      let (c, d3) := get64 d2
      let (e, d4) := get64 d3
      some (⟨a, b, c, e⟩, d4)

/-- `FLAGS_s2polygon_decode_max_num_vertices` (default 50,000,000). -/
def decodeMaxNumVertices : ℕ := 50000000

/-- The fields of an `S2Loop` that the codecs read and write: the vertex
buffer, `origin_inside_`, `depth_`, and `bound_`.  (`subregion_bound_` is
always re-derived from `bound_` on decode, and the index and the warm-up
counter are always reset; they carry no codec state.) -/
structure LoopWire where
  vertices : List Pt64
  originInside : Bool
  depth : ℕ
  bound : WireRect
  deriving DecidableEq, Repr

/-- `S2Loop::Encode`: version byte 1, u32 vertex count, raw vertices,
u8 `origin_inside`, u32 depth, encoded bound. -/
def encodeLoop (L : LoopWire) : List ℕ :=
  put8 1 ++ put32 L.vertices.length ++ (L.vertices.map putPoint).flatten ++
  put8 (if L.originInside then 1 else 0) ++ put32 L.depth ++ encodeRect L.bound

/-- `S2Loop::DecodeInternal`: all length and size checks, then the field
reads, then the trailing bound decode.  Returns the success flag, the loop
state after the call, and the remaining bytes.  The `within_scope` aliasing
choice affects only buffer ownership, not the decoded values, and is not
modelled. -/
def decodeInternal (d : List ℕ) (L : LoopWire) : Bool × LoopWire × List ℕ :=
  if d.length < 4 then (false, L, d)
  else
    let (n, d1) := get32 d
    if n > decodeMaxNumVertices then (false, L, d1)
    else if d1.length < n * 24 + 1 + 4 then (false, L, d1)
    else
      let (pts, d2) := getPoints n d1
      let (o, d3) := get8 d2
      let (dep, d4) := get32 d3
      match decodeRect d4 with
      | none =>
        -- the bound decode failed, but the vertex buffer, origin_inside
        -- and depth were already replaced (the loop keeps its old bound)
        (false, { vertices := pts, originInside := o ≠ 0, depth := dep,
                  bound := L.bound }, d4)
      | some (r, d5) =>
        (true, { vertices := pts, originInside := o ≠ 0, depth := dep,
                 bound := r }, d5)

/-- `S2Loop::Decode`: check one byte is available, read the version, and
dispatch to `DecodeInternal` when it is 1. -/
def decodeLoop (d : List ℕ) (L : LoopWire) : Bool × LoopWire × List ℕ :=
  if d.length < 1 then (false, L, d)
  else
    let (v, d1) := get8 d
    if v = 1 then decodeInternal d1 L else (false, L, d1)

/-- `S2Loop::GetCompressedEncodingProperties`: bit 0 = `origin_inside`,
bit 1 = bound encoded (set iff the vertex count is at least 64). -/
def compressedProps (L : LoopWire) : ℕ :=
  (if L.originInside then 1 else 0) + (if L.vertices.length ≥ 64 then 2 else 0)

/-- `S2Loop::EncodeCompressed`: varint vertex count, compressed points
(external codec `pEnc`), varint properties, varint depth, and the encoded
bound iff the bound-encoded property bit is set. -/
def encodeCompressed (pEnc : List Pt64 → List ℕ) (L : LoopWire) : List ℕ :=
  putVarint L.vertices.length ++ pEnc L.vertices ++
  putVarint (compressedProps L) ++ putVarint L.depth ++
  (if L.vertices.length ≥ 64 then encodeRect L.bound else [])

/-- `S2Loop::DecodeCompressed`.  `pDec` is the external point codec
(`S2DecodePointsCompressed`); `recomputeBound` is the `InitBound`
recomputation used when the bound-encoded bit is absent (a function of the
decoded vertices and `origin_inside`; the geometry behind it is external).
Returns the success flag and the loop state after the call. -/
def decodeCompressed (pDec : ℕ → List ℕ → Option (List Pt64 × List ℕ))
    (recomputeBound : List Pt64 → Bool → WireRect)
    (d : List ℕ) (L : LoopWire) : Bool × LoopWire :=
  match getVarint d with
  | none => (false, L)
  | some (n, d1) =>
    if n = 0 ∨ n > decodeMaxNumVertices then (false, L)
    else
      -- num_vertices_ is set and a fresh (uninitialized) vertex buffer is
      -- allocated before the point decode; the allocation is modelled as a
      -- buffer of n zero points
      let L1 : LoopWire := { L with vertices := List.replicate n ⟨0, 0, 0⟩ }
      match pDec n d1 with
      | none => (false, L1)
      | some (pts, d2) =>
        let L2 : LoopWire := { L1 with vertices := pts }
        match getVarint d2 with
        | none => (false, L2)
        | some (props, d3) =>
          let L3 : LoopWire := { L2 with originInside := props % 2 = 1 }
          match getVarint d3 with
          | none => (false, L3)
          | some (dep, d4) =>
            let L4 : LoopWire := { L3 with depth := dep }
            if props / 2 % 2 = 1 then
              match decodeRect d4 with
              | none => (false, L4)
              | some (r, _) => (true, { L4 with bound := r })
            else
              (true, { L4 with bound := recomputeBound pts (props % 2 = 1) })

/-- A concrete instantiation of the external compressed-point encoder used
to exercise the compressed codec on explicit inputs: the raw byte copy of
the points. -/
def peC : List Pt64 → List ℕ := fun ps => (ps.map putPoint).flatten

/-- The matching concrete point decoder: reads `n` points when enough bytes
remain, else fails. -/
def pdC : ℕ → List ℕ → Option (List Pt64 × List ℕ) := fun n d =>
  if n * 24 ≤ d.length then some (getPoints n d) else none

/-- A concrete instantiation of the bound recomputation used to exercise
the compressed codec on explicit inputs. -/
def rbC : List Pt64 → Bool → WireRect := fun _ _ => ⟨0, 0, 0, 0⟩

/-! ## Point-containment dispatch (`S2Loop::Contains(S2Point)`)

The claims C1 and C2 are about which branch of `Contains` produces the
answer, so the embedding records the branch taken together with the warm-up
counter update.  The geometric crossing tests themselves are external
(`EdgeCrosser`). -/

/-- The branch of `S2Loop::Contains(S2Point)` that produces the answer. -/
inductive ContainsPath
  | preFilterFalse
  | bruteForce
  | indexedLookup
  deriving DecidableEq, Repr

/-- `kMaxBruteForceVertices` in `Contains`. -/
def kMaxBruteForceVertices : ℕ := 32

/-- `kMaxUnindexedContainsCalls` in `Contains`. -/
def kMaxUnindexedContainsCalls : ℕ := 20

/-- The dispatch step of `Contains`: given `index_.num_shape_ids()`,
`num_vertices()`, `index_.is_fresh()`, and the pre-call value of
`unindexed_contains_calls_`, return the branch taken and the post-call
counter.  The `&&`/`||` short-circuiting of the C++ condition decides
whether the atomic increment happens at all. -/
def containsDispatch (numShapeIds n : ℕ) (fresh : Bool) (counter : ℕ) :
    ContainsPath × ℕ :=
  if numShapeIds = 0 then (.bruteForce, counter)
  else if n ≤ kMaxBruteForceVertices then (.bruteForce, counter)
  else if fresh = false then
    if counter + 1 ≠ kMaxUnindexedContainsCalls then (.bruteForce, counter + 1)
    else (.indexedLookup, counter + 1)
  else (.indexedLookup, counter)

/-- The whole of `Contains(S2Point)` at the control-flow level: the bound
pre-filter (`!is_fresh && !bound.Contains(p)`) followed by the dispatch. -/
def containsPath (fresh boundContainsP : Bool) (numShapeIds n : ℕ)
    (counter : ℕ) : ContainsPath × ℕ :=
  if fresh = false ∧ boundContainsP = false then (.preFilterFalse, counter)
  else containsDispatch numShapeIds n fresh counter

/-- `S2Loop::BruteForceContains`: the parity of edge-or-vertex crossings on
the segment from `S2::Origin()` to `p`, seeded with `origin_inside_`.
`crossing i` abstracts the external `EdgeCrosser::EdgeOrVertexCrossing` call
for the edge ending at `vertex(i)`. -/
def bruteForceContains (originInside : Bool) (n : ℕ) (crossing : ℕ → Bool) :
    Bool :=
  if n < 3 then originInside
  else (List.range n).foldl (fun inside i => xor inside (crossing (i + 1)))
    originInside

/-- `Contains(S2Point)` returning the boolean answer together with the
branch and the updated counter; `indexedResult` abstracts the value computed
by the indexed cell-lookup path. -/
def containsPoint (fresh boundContainsP : Bool) (numShapeIds n counter : ℕ)
    (originInside : Bool) (crossing : ℕ → Bool) (indexedResult : Bool) :
    Bool × ContainsPath × ℕ :=
  match containsPath fresh boundContainsP numShapeIds n counter with
  | (.preFilterFalse, c) => (false, .preFilterFalse, c)
  | (.bruteForce, c) => (bruteForceContains originInside n crossing, .bruteForce, c)
  | (.indexedLookup, c) => (indexedResult, .indexedLookup, c)

/-! ## Area (`S2Loop::GetArea`, `S2Loop::IsNormalized`)

The double arithmetic is modelled over an arbitrary linear ordered field,
with π as a parameter; the external `GetSurfaceIntegral`, the longitude span
of the bound, and `GetTurningAngle` enter as values. -/

section Area

variable (K : Type) [LinearOrderedField K]

/-- `DBL_EPSILON` = 2⁻⁵². -/
def dblEpsilon : K := (1 / 2) ^ 52

/-- `S2Loop::GetTurningAngleMaxError`: 9.73 · ε per vertex. -/
def turningAngleMaxError (n : ℕ) : K := 973 / 100 * dblEpsilon K * n

variable {K}

/-- `S2Loop::IsNormalized`: longitude span below π, else turning angle at
least the negated max error. -/
def isNormalized (piK lngLen turn : K) (n : ℕ) : Bool :=
  if lngLen < piK then true
  else if turn ≥ -turningAngleMaxError K n then true
  else false

/-- `S2Loop::GetArea`.  `signed` is the external
`GetSurfaceIntegral(SignedArea)`; `lngLen` and `turn` feed `IsNormalized`. -/
def getArea (piK : K) (n : ℕ) (isEmptyOrFull containsOrigin : Bool)
    (signed lngLen turn : K) : K :=
  if isEmptyOrFull then (if containsOrigin then 4 * piK else 0)
  else
    let maxError := turningAngleMaxError K n
    let area0 := if signed < 0 then signed + 4 * piK else signed
    let area := max 0 (min (4 * piK) area0)
    if area < maxError ∧ isNormalized piK lngLen turn n = false then 4 * piK
    else if area > 4 * piK - maxError ∧ isNormalized piK lngLen turn n = true then 0
    else area

/-- The C3 claim's description of `GetArea`, transcribed from its words:
add 4π when the signed integral is negative, clamp to [0, 4π], then
disambiguate the two ends with `max_err = 9.73·ε·n`, where a loop is
normalized iff its longitude span is below π or its turning angle is at
least −max-turning-error; empty returns 0 and full returns 4π. -/
def getAreaClaimed (piK : K) (n : ℕ) (isEmptyOrFull containsOrigin : Bool)
    (signed lngLen turn : K) : K :=
  if isEmptyOrFull then (if containsOrigin then 4 * piK else 0)
  else
    let maxErr := 973 / 100 * dblEpsilon K * n
    let signedAdj := if signed < 0 then signed + 4 * piK else signed
    let clamped := max 0 (min (4 * piK) signedAdj)
    let normalized := lngLen < piK ∨ turn ≥ -maxErr
    if clamped < maxErr ∧ ¬normalized then 4 * piK
    else if clamped > 4 * piK - maxErr ∧ normalized then 0
    else clamped

end Area

/-! ## Turning angle (`S2Loop::GetTurningAngle`,
`S2Loop::GetCanonicalFirstVertex`)

Vertices live in an arbitrary linearly ordered type (the C++ comparison is
the lexicographic order on coordinates); the per-vertex `S2::TurnAngle` is
external and abstracted as `T`.  The value computed by the code is
`dir * kahan(map T triples)`, so equality of the `(dir, triples)` trace for
two loops means the identical sequence of floating-point operations runs for
both — that is what makes the results bit-for-bit equal rather than merely
close. -/

section Turning

variable {Pt : Type} [LinearOrder Pt] [Inhabited Pt]

/-- `S2Loop::vertex(i)`: `vertices[i mod n]` (the C++ version is defined for
`i ∈ [0, 2n−1]`, which agrees with the mod). -/
def idx (vs : List Pt) (j : ℕ) : Pt := vs.getD (j % vs.length) default

/-- The scan in `GetCanonicalFirstVertex` that finds the first index holding
the smallest vertex. -/
def minFirstIdx (vs : List Pt) : ℕ :=
  (List.range vs.length).foldl
    (fun first i => if vs.getD i default < vs.getD first default then i else first) 0

/-- The direction choice of `GetCanonicalFirstVertex`:
`vertex(first + 1) < vertex(first + n − 1)` selects `dir = 1`. -/
def canonFwd (vs : List Pt) : Bool :=
  decide (idx vs (minFirstIdx vs + 1) < idx vs (minFirstIdx vs + (vs.length - 1)))

/-- The ordered list of vertex triples whose turn angles `GetTurningAngle`
sums: the head is the initial `sum` term, the rest follow in loop order
(stepping by `dir`). -/
def turnTriples (vs : List Pt) : List (Pt × Pt × Pt) :=
  let n := vs.length
  let f := minFirstIdx vs
  if canonFwd vs then
    (List.range n).map (fun k => (idx vs (f + k + (n - 1)), idx vs (f + k), idx vs (f + k + 1)))
  else
    (List.range n).map (fun k => (idx vs (f + (n - k) + 1), idx vs (f + (n - k)), idx vs (f + (n - k) - 1)))

variable {K : Type} [Field K]

/-- One Kahan accumulation step, as written in the loop body of
`GetTurningAngle` (state is `(sum, compensation)`). -/
def kahanStep (sc : K × K) (x : K) : K × K :=
  let angle := x + sc.2
  let sum := sc.1 + angle
  (sum, sc.1 - sum + angle)

/-- Kahan summation seeded with the first term and finished with
`sum + compensation`, as in `GetTurningAngle`. -/
def kahanSum : List K → K
  | [] => 0
  | x :: rest => let r := rest.foldl kahanStep (x, 0); r.1 + r.2

/-- The loop state `GetTurningAngle` reads: the vertex list and
`origin_inside_` (`contains_origin()` decides the sentinel values, and
`is_empty_or_full()` is `num_vertices() == 1`). -/
structure TurnLoop (Pt : Type) where
  vertices : List Pt
  originInside : Bool

/-- `S2Loop::GetTurningAngle`, with the external `S2::TurnAngle` abstracted
as `T` and π as `piK`. -/
def getTurningAngle (T : Pt → Pt → Pt → K) (piK : K) (L : TurnLoop Pt) : K :=
  if L.vertices.length = 1 then
    (if L.originInside then -(2 * piK) else 2 * piK)
  else if L.vertices.length < 3 then 0
  else
    (if canonFwd L.vertices then 1 else -1) *
      kahanSum ((turnTriples L.vertices).map (fun t => T t.1 t.2.1 t.2.2))

end Turning

/-! ## Inversion (`S2Loop::Invert`, `S2Loop::InitBound`)

The latitude-longitude rectangle keeps its four coordinates in the ordered
field `K`; the non-sentinel `RectBounder` geometry and
`ExpandForSubregions` are external and enter as the parameters `rawBound`
and `expandSub`. -/

section Invert

variable {Pt : Type} {K : Type} [LinearOrderedField K]

/-- A lat-lng rectangle: `(lat.lo, lat.hi, lng.lo, lng.hi)`. -/
structure GeoRect (K : Type) where
  latLo : K
  latHi : K
  lngLo : K
  lngHi : K
  deriving DecidableEq, Repr

/-- `S2LatLngRect::Full()`: lat `[-π/2, π/2]`, lng `[-π, π]`. -/
def fullRect (piK : K) : GeoRect K := ⟨-(piK / 2), piK / 2, -piK, piK⟩

/-- `S2LatLngRect::Empty()`: empty lat interval `[1, 0]`, empty lng interval
`[π, -π]`. -/
def emptyRect (piK : K) : GeoRect K := ⟨1, 0, piK, -piK⟩

/-- The loop state `Invert` touches: vertices, `origin_inside_`, `bound_`,
`subregion_bound_`. -/
structure GeoLoop (Pt K : Type) where
  vertices : List Pt
  originInside : Bool
  bound : GeoRect K
  subregionBound : GeoRect K

/-- `S2Loop::InitBound` as a pair `(bound_, subregion_bound_)`: the sentinel
cases are explicit; the non-sentinel `RectBounder`-plus-pole-tests geometry
is the external `rawBound`, and `ExpandForSubregions` is `expandSub`.
`oi` is `origin_inside_` at call time (`is_empty()` is
`is_empty_or_full() && !contains_origin()`). -/
def initBoundPair (piK : K) (rawBound : List Pt → Bool → GeoRect K)
    (expandSub : GeoRect K → GeoRect K) (vs : List Pt) (oi : Bool) :
    GeoRect K × GeoRect K :=
  if vs.length = 1 then
    if oi then (fullRect piK, fullRect piK) else (emptyRect piK, emptyRect piK)
  else
    let b := rawBound vs oi
    (b, expandSub b)

/-- `S2Loop::Invert`.  `emptyV`/`fullV` are `kEmptyVertex()`/`kFullVertex()`;
the sentinel swap replaces the single vertex, other loops reverse; then
`origin_inside_` flips, and the bound is either set to full (when the old
bound touches neither pole, so the complement contains both) or recomputed
by `InitBound`. -/
def invert (piK : K) (rawBound : List Pt → Bool → GeoRect K)
    (expandSub : GeoRect K → GeoRect K) (emptyV fullV : Pt)
    (L : GeoLoop Pt K) : GeoLoop Pt K :=
  let vs :=
    if L.vertices.length = 1 then
      [if L.originInside then emptyV else fullV]
    else L.vertices.reverse
  let oi := ! L.originInside
  if -(piK / 2) < L.bound.latLo ∧ L.bound.latHi < piK / 2 then
    { vertices := vs, originInside := oi,
      bound := fullRect piK, subregionBound := fullRect piK }
  else
    let p := initBoundPair piK rawBound expandSub vs oi
    { vertices := vs, originInside := oi, bound := p.1, subregionBound := p.2 }

end Invert

/-! ## `S2Loop::CompareBoundary` and `CompareBoundaryRelation` -/

section CompareBoundary

variable {Pt : Type} [DecidableEq Pt]

/-- `WedgeContainsSemiwedge`, with the external `S2::OrderedCCW` abstracted
as `occw`. -/
def wedgeContainsSemiwedge (occw : Pt → Pt → Pt → Pt → Bool)
    (a0 ab1 a2 b2 : Pt) (reverseB : Bool) : Bool :=
  if b2 = a0 ∨ b2 = a2 then decide (b2 = a0) == reverseB
  else occw a0 a2 b2 ab1

/-- The flag state of `CompareBoundaryRelation`, plus whether a wedge
crossing was reported (once `WedgesCross` returns true the index walk
stops, so that state is absorbing). -/
structure CBRState where
  foundShared : Bool
  containsEdge : Bool
  excludesEdge : Bool
  crossed : Bool
  deriving DecidableEq, Repr

/-- The initial relation state. -/
def cbrInit : CBRState := ⟨false, false, false, false⟩

/-- `CompareBoundaryRelation::WedgesCross` on one shared-vertex wedge event;
`contained` is the `WedgeContainsSemiwedge` result for that event. -/
def cbrStep (st : CBRState) (contained : Bool) : CBRState :=
  if st.crossed then st
  else
    let c := st.containsEdge || contained
    let e := st.excludesEdge || !contained
    ⟨true, c, e, c && e⟩

/-- `S2Loop::CompareBoundary`.  The index walk is summarized by `edgeCross`
(a proper edge crossing was found), the ordered list `wedges` of
shared-vertex events `(a0, ab1, a2, b2)` fed to `WedgesCross` (its `b0`
argument is unused by this relation), and `containsBv0`
(`A.Contains(B.vertex(0))`). -/
def compareBoundary (boundsIntersect aFull bFull revB : Bool)
    (occw : Pt → Pt → Pt → Pt → Bool) (wedges : List (Pt × Pt × Pt × Pt))
    (edgeCross containsBv0 : Bool) : ℤ :=
  if boundsIntersect = false then -1
  else if aFull then 1
  else if bFull then -1
  else
    let st := wedges.foldl
      (fun st w => cbrStep st (wedgeContainsSemiwedge occw w.1 w.2.1 w.2.2.1 w.2.2.2 revB))
      cbrInit
    if edgeCross || st.crossed then 0
    else if st.foundShared then (if st.containsEdge then 1 else -1)
    else if containsBv0 then 1 else -1

/-- The C6 claim's description of `CompareBoundary`, transcribed from its
words: −1 on disjoint bounds, +1 when A is full, −1 when B is full, 0 when
the relation walk finds a crossing (an edge crossing, or wedges showing
both a contained and an excluded edge of B), ±1 by the contains-edge flag
when a shared vertex was seen, else the sign of `A.Contains(B.vertex(0))`. -/
def compareBoundaryClaimed (boundsIntersect aFull bFull revB : Bool)
    (occw : Pt → Pt → Pt → Pt → Bool) (wedges : List (Pt × Pt × Pt × Pt))
    (edgeCross containsBv0 : Bool) : ℤ :=
  if boundsIntersect = false then -1
  else if aFull then 1
  else if bFull then -1
  else
    let cs := wedges.map
      (fun w => wedgeContainsSemiwedge occw w.1 w.2.1 w.2.2.1 w.2.2.2 revB)
    if edgeCross || (cs.any id && cs.any (fun b => !b)) then 0
    else if cs ≠ [] then (if cs.any id then 1 else -1)
    else if containsBv0 then 1 else -1

end CompareBoundary

/-! ## `S2Loop::FindVertex` -/

section FindVertex

variable {Pt : Type} [LinearOrder Pt] [Inhabited Pt]

/-- The scan over the clipped edges of the located index cell (the C++ loop
reads `edge(num_edges-1) .. edge(0)`; the list is taken in scan order). -/
def scanEdges (vs : List Pt) (p : Pt) : List ℕ → Option ℕ
  | [] => none
  | ai :: rest =>
    if idx vs ai = p then some (if ai = 0 then vs.length else ai)
    else if idx vs (ai + 1) = p then some (ai + 1)
    else scanEdges vs p rest

/-- `S2Loop::FindVertex`.  Below 10 vertices: exhaustive search over
`i = 1..n`.  Otherwise `locate` abstracts `it.Locate(p)` returning the
clipped edge ids of the located cell (in scan order), or `none` when no
index cell contains `p`. -/
def findVertex (locate : Pt → Option (List ℕ)) (vs : List Pt) (p : Pt) : ℤ :=
  if vs.length < 10 then
    match (List.range vs.length).find? (fun j => decide (idx vs (j + 1) = p)) with
    | some j => (j : ℤ) + 1
    | none => -1
  else
    match locate p with
    | none => -1
    | some edges =>
      match scanEdges vs p edges with
      | some r => (r : ℤ)
      | none => -1

end FindVertex

/-! ## Theorems for the claims -/

/-- Helper: the dispatch step never produces the pre-filter branch. -/
theorem containsDispatch_ne_preFilter (numShapeIds n : ℕ) (fresh : Bool)
    (counter : ℕ) :
    (containsDispatch numShapeIds n fresh counter).1 ≠ ContainsPath.preFilterFalse := by
  unfold containsDispatch
  split_ifs <;> simp

/-- C1 (amended): the bound pre-filter of `Contains(S2Point)` returns false
immediately — without counting any edge crossings — exactly when the index
is NOT fresh and the loop's bound does not contain `p`; in particular with a
fresh index the pre-filter never rejects, whatever the bound says, and when
the bound contains `p` it never rejects. -/
theorem c1_bound_pre_filter (fresh boundContainsP : Bool)
    (numShapeIds n counter : ℕ) (originInside : Bool) (crossing : ℕ → Bool)
    (indexedResult : Bool) :
    ((containsPath fresh boundContainsP numShapeIds n counter).1 =
        ContainsPath.preFilterFalse ↔ fresh = false ∧ boundContainsP = false) ∧
    ((containsPath fresh boundContainsP numShapeIds n counter).1 =
        ContainsPath.preFilterFalse →
      (containsPoint fresh boundContainsP numShapeIds n counter originInside
        crossing indexedResult).1 = false) := by
  constructor
  · unfold containsPath
    split_ifs with h
    · simp [h]
    · exact ⟨fun hc =>
        absurd hc (containsDispatch_ne_preFilter numShapeIds n fresh counter),
        fun hc => absurd hc h⟩
  · intro h
    unfold containsPoint
    revert h
    rcases hd : containsPath fresh boundContainsP numShapeIds n counter with ⟨path, c⟩
    cases path <;> simp

/-- C1 counterexample: with a fresh index (one shape, 33 vertices, counter
0) and a bound that does not contain `p`, `Contains` does not return false
from the pre-filter — it proceeds to the indexed crossing-count lookup —
refuting the claim that a fresh index together with a non-containing bound
short-circuits to false. -/
theorem c1_counterexample :
    (containsPath true false 1 33 0).1 ≠ ContainsPath.preFilterFalse ∧
    (containsPath true false 1 33 0).1 = ContainsPath.indexedLookup := by decide

/-- C2 (amended): at the dispatch step of `Contains(S2Point)`, the
brute-force crossing count is used exactly when the index has no shapes
yet, or the loop has at most 32 vertices, or the index is not fresh and the
post-increment of the call counter DIFFERS from the threshold 20 (the code
tests `!= 20`, not `< 20`); the counter is incremented exactly on the
stale-index dispatches that get past the first two tests; and index
materialization — taking the indexed path on a stale index — happens
exactly on the call whose post-increment equals 20. -/
theorem c2_dispatch_condition (numShapeIds n : ℕ) (fresh : Bool)
    (counter : ℕ) :
    ((containsDispatch numShapeIds n fresh counter).1 = ContainsPath.bruteForce ↔
      (numShapeIds = 0 ∨ n ≤ 32 ∨ (fresh = false ∧ counter + 1 ≠ 20))) ∧
    ((containsDispatch numShapeIds n fresh counter).2 =
      if numShapeIds ≠ 0 ∧ 32 < n ∧ fresh = false then counter + 1 else counter) ∧
    (((containsDispatch numShapeIds n fresh counter).1 = ContainsPath.indexedLookup ∧
        fresh = false) ↔
      (numShapeIds ≠ 0 ∧ 32 < n ∧ fresh = false ∧ counter + 1 = 20)) := by
  unfold containsDispatch kMaxBruteForceVertices kMaxUnindexedContainsCalls
  cases fresh <;> split_ifs <;> simp_all <;> omega

/-- C2 counterexample: with one shape, 33 vertices, a stale index and
counter 20 (so the post-increment is 21), the code takes the brute-force
branch, yet the claimed dispatch condition — no shapes, or at most 32
vertices, or stale index with post-increment below 20 — is false there, so
the claimed "exactly when" fails. -/
theorem c2_counterexample :
    (containsDispatch 1 33 false 20).1 = ContainsPath.bruteForce ∧
    ¬(1 = 0 ∨ 33 ≤ 32 ∨ (false = false ∧ 20 + 1 < 20)) := by decide

/-- Helper: `IsNormalized` as the claimed disjunction. -/
theorem isNormalized_iff {K : Type} [LinearOrderedField K]
    (piK lngLen turn : K) (n : ℕ) :
    isNormalized piK lngLen turn n = true ↔
      (lngLen < piK ∨ turn ≥ -turningAngleMaxError K n) := by
  unfold isNormalized
  split_ifs <;> simp_all

/-- C3: `GetArea` computes exactly the claimed formula — the signed surface
integral, plus 4π when negative, clamped to [0, 4π], then 4π when the
clamped area is below `max_err = 9.73·ε·n` on a non-normalized loop, 0 when
it exceeds 4π − max_err on a normalized loop, and the clamped area
otherwise, where a loop is normalized iff its longitude span is below π or
its turning angle is at least −max-turning-error; the empty sentinel
returns 0 and the full sentinel 4π. -/
theorem c3_get_area {K : Type} [LinearOrderedField K] (piK : K) (n : ℕ)
    (isEmptyOrFull containsOrigin : Bool) (signed lngLen turn : K) :
    getArea piK n isEmptyOrFull containsOrigin signed lngLen turn =
      getAreaClaimed piK n isEmptyOrFull containsOrigin signed lngLen turn := by
  rcases isEmptyOrFull with _ | _
  · have h := isNormalized_iff piK lngLen turn n
    unfold getArea getAreaClaimed
    simp only [Bool.false_eq_true, if_false]
    rw [show 973 / 100 * dblEpsilon K * (n : K) = turningAngleMaxError K n from rfl]
    rcases hN : isNormalized piK lngLen turn n with _ | _ <;> rw [hN] at h
    · have h' : ¬(lngLen < piK ∨ turn ≥ -turningAngleMaxError K n) :=
        fun hp => by simpa using h.mpr hp
      simp [h']
    · have h' := h.mp rfl
      simp [h']
  · unfold getArea getAreaClaimed
    simp

/-! ### Codec round-trip helpers -/

/-- Reading back one byte. -/
theorem get8_put8 (v : ℕ) (r : List ℕ) (h : v < 256) : get8 (put8 v ++ r) = (v, r) := by
  simp [get8, put8, Nat.mod_eq_of_lt h]

/-- Reading back a little-endian u32. -/
theorem get32_put32 (v : ℕ) (r : List ℕ) (h : v < 2 ^ 32) :
    get32 (put32 v ++ r) = (v, r) := by
  simp only [get32, put32, List.cons_append, List.nil_append, List.getD_cons_zero,
    List.getD_cons_succ, List.drop_succ_cons, List.drop_zero]
  refine Prod.ext ?_ rfl
  simp only
  omega

/-- Reading back a little-endian 64-bit pattern. -/
theorem get64_put64 (v : ℕ) (r : List ℕ) (h : v < 2 ^ 64) :
    get64 (put64 v ++ r) = (v, r) := by
  simp only [get64, put64, List.cons_append, List.nil_append, List.getD_cons_zero,
    List.getD_cons_succ, List.drop_succ_cons, List.drop_zero]
  refine Prod.ext ?_ rfl
  simp only
  omega

/-- The value component of a 64-bit read-back. -/
theorem get64_put64_fst (v : ℕ) (r : List ℕ) (h : v < 2 ^ 64) :
    (get64 (put64 v ++ r)).1 = v := by rw [get64_put64 v r h]

/-- The remainder component of a 64-bit read-back. -/
theorem get64_put64_snd (v : ℕ) (r : List ℕ) (h : v < 2 ^ 64) :
    (get64 (put64 v ++ r)).2 = r := by rw [get64_put64 v r h]

/-- Reading back one vertex. -/
theorem getPoint_putPoint (p : Pt64) (r : List ℕ) (h : p.wf) :
    getPoint (putPoint p ++ r) = (p, r) := by
  obtain ⟨hx, hy, hz⟩ := h
  unfold getPoint putPoint
  simp only [List.append_assoc]
  rw [get64_put64_snd _ _ hx, get64_put64_fst _ _ hx,
    get64_put64_snd _ _ hy, get64_put64_fst _ _ hy,
    get64_put64_snd _ _ hz, get64_put64_fst _ _ hz]

/-- Reading back a vertex array written as raw bytes. -/
theorem getPoints_append (ps : List Pt64) (r : List ℕ) (h : ∀ p ∈ ps, p.wf) :
    getPoints ps.length ((ps.map putPoint).flatten ++ r) = (ps, r) := by
  induction ps with
  | nil => simp [getPoints]
  | cons p ps ih =>
    simp only [List.map_cons, List.flatten_cons, List.length_cons, List.append_assoc]
    rw [getPoints]
    simp only [getPoint_putPoint p _ (h p (by simp)),
      ih (fun q hq => h q (by simp [hq]))]

/-- The vertex-list component of the array read-back. -/
theorem getPoints_append_fst (ps : List Pt64) (r : List ℕ) (h : ∀ p ∈ ps, p.wf) :
    (getPoints ps.length ((ps.map putPoint).flatten ++ r)).1 = ps := by
  rw [getPoints_append ps r h]

/-- The remainder component of the array read-back. -/
theorem getPoints_append_snd (ps : List Pt64) (r : List ℕ) (h : ∀ p ∈ ps, p.wf) :
    (getPoints ps.length ((ps.map putPoint).flatten ++ r)).2 = r := by
  rw [getPoints_append ps r h]

/-- The value component of a u32 read-back. -/
theorem get32_put32_fst (v : ℕ) (r : List ℕ) (h : v < 2 ^ 32) :
    (get32 (put32 v ++ r)).1 = v := by rw [get32_put32 v r h]

/-- The remainder component of a u32 read-back. -/
theorem get32_put32_snd (v : ℕ) (r : List ℕ) (h : v < 2 ^ 32) :
    (get32 (put32 v ++ r)).2 = r := by rw [get32_put32 v r h]

/-- The byte count of a written vertex array. -/
theorem length_flatten_putPoint (ps : List Pt64) :
    (ps.map putPoint).flatten.length = 24 * ps.length := by
  induction ps with
  | nil => simp
  | cons p ps ih =>
    simp [putPoint, put64, ih]
    ring

/-- Reading back the modelled bound record. -/
theorem decodeRect_encodeRect (b : WireRect) (r : List ℕ) (h : b.wf) :
    decodeRect (encodeRect b ++ r) = some (b, r) := by
  obtain ⟨h1, h2, h3, h4⟩ := h
  have hlen : (encodeRect b).length = 33 := by simp [encodeRect, put8, put64]
  unfold decodeRect
  rw [if_neg (by simp [hlen])]
  unfold encodeRect
  simp only [List.append_assoc]
  rw [get8_put8 _ _ (by norm_num)]
  simp only [ne_eq, not_true_eq_false, if_false, one_ne_zero]
  rw [get64_put64_snd _ _ h1, get64_put64_fst _ _ h1,
    get64_put64_snd _ _ h2, get64_put64_fst _ _ h2,
    get64_put64_snd _ _ h3, get64_put64_fst _ _ h3,
    get64_put64_snd _ _ h4, get64_put64_fst _ _ h4]

/-- Lossless round trip: decoding an encoded loop succeeds, consumes the
whole encoding, and reproduces the loop exactly. -/
theorem decodeLoop_encodeLoop (L L0 : LoopWire)
    (hn : L.vertices.length ≤ decodeMaxNumVertices)
    (hp : ∀ p ∈ L.vertices, p.wf)
    (hd : L.depth < 2 ^ 32)
    (hb : L.bound.wf) :
    decodeLoop (encodeLoop L) L0 = (true, L, []) := by
  obtain ⟨vs, oi, dep, bd⟩ := L
  simp only at hn hp hd hb
  have hn32 : vs.length < 2 ^ 32 := by
    unfold decodeMaxNumVertices at hn; omega
  have hmax : ¬ vs.length > decodeMaxNumVertices := not_lt.mpr hn
  have hb8 : put8 (if oi then 1 else 0) = [if oi then 1 else 0] := by
    cases oi <;> rfl
  unfold decodeLoop encodeLoop
  rw [show put8 1 = [1] from rfl, hb8]
  simp only [List.cons_append, List.nil_append, List.append_assoc]
  rw [if_neg (by simp)]
  simp only [get8, List.headD_cons, List.tail_cons]
  simp only [if_true]
  unfold decodeInternal
  rw [if_neg (by simp [put32])]
  simp only [get32_put32_fst _ _ hn32, get32_put32_snd _ _ hn32]
  rw [if_neg hmax]
  rw [if_neg (by
    have hL := length_flatten_putPoint vs
    simp [put32, encodeRect, put8, put64] at hL ⊢
    omega)]
  simp only [getPoints_append_fst vs _ hp, getPoints_append_snd vs _ hp]
  simp only [get8, List.headD_cons, List.tail_cons]
  simp only [get32_put32_fst _ _ hd, get32_put32_snd _ _ hd]
  simp only [show decodeRect (encodeRect bd) = some (bd, []) from by
    simpa using decodeRect_encodeRect bd [] hb]
  cases oi <;> simp

/-- Varint round trip with trailing bytes. -/
theorem getVarint_putVarint (n : ℕ) (r : List ℕ) :
    getVarint (putVarint n ++ r) = some (n, r) := by
  induction n using Nat.strong_induction_on with
  | _ n ih =>
    unfold putVarint
    split_ifs with h
    · simp [getVarint, h]
    · rw [List.cons_append]
      unfold getVarint
      rw [if_neg (by omega)]
      rw [ih (n / 128) (Nat.div_lt_self (by omega) (by omega))]
      simp only
      congr 1
      refine Prod.ext ?_ rfl
      simp only
      omega

/-- Varint round trip at the end of the stream. -/
theorem getVarint_putVarint_nil (n : ℕ) : getVarint (putVarint n) = some (n, []) := by
  simpa using getVarint_putVarint n []

/-- Compressed round trip: decoding an encoded loop succeeds and reproduces
the vertices, `origin_inside` and depth exactly, with the bound reproduced
exactly when the bound-encoded property bit is present (vertex count at
least 64) and re-derived otherwise.  `pDec`/`pEnc` are the external point
codec, assumed to round-trip. -/
theorem decodeCompressed_encodeCompressed
    (pEnc : List Pt64 → List ℕ) (pDec : ℕ → List ℕ → Option (List Pt64 × List ℕ))
    (recomputeBound : List Pt64 → Bool → WireRect) (L L0 : LoopWire)
    (h1 : 1 ≤ L.vertices.length) (hn : L.vertices.length ≤ decodeMaxNumVertices)
    (hpd : ∀ rest, pDec L.vertices.length (pEnc L.vertices ++ rest) =
      some (L.vertices, rest))
    (hb : L.bound.wf) :
    decodeCompressed pDec recomputeBound (encodeCompressed pEnc L) L0 =
      (true, { vertices := L.vertices, originInside := L.originInside,
               depth := L.depth,
               bound := if 64 ≤ L.vertices.length then L.bound
                        else recomputeBound L.vertices L.originInside }) := by
  obtain ⟨vs, oi, dep, bd⟩ := L
  simp only at h1 hn hpd hb ⊢
  have hne : ¬ (vs.length = 0 ∨ vs.length > decodeMaxNumVertices) := by
    rintro (h | h)
    · omega
    · exact absurd hn (not_le.mpr h)
  have hrect : decodeRect (encodeRect bd) = some (bd, []) := by
    have := decodeRect_encodeRect bd [] hb
    simpa using this
  unfold decodeCompressed encodeCompressed compressedProps
  simp only [List.append_assoc, getVarint_putVarint]
  rw [if_neg hne]
  by_cases h64 : 64 ≤ vs.length <;> cases oi <;>
    simp only [ge_iff_le, h64, if_true, if_false, List.append_nil, hpd,
      getVarint_putVarint, getVarint_putVarint_nil, hrect] <;>
    norm_num [hrect]

/-- C4 (amended): every failure of the preliminary length and size checks
leaves the loop untouched — for the lossless decoder: missing or wrong
version byte, short input, a vertex count over the limit, or too few bytes
for the vertex, origin and depth fields; for the compressed decoder: a
missing, zero, or over-limit vertex count.  (A failure in the later field
reads — the trailing bound decode of the lossless format, or the point,
properties, depth or bound reads of the compressed format — happens after
the vertex buffer and fields were replaced, so it can leave the loop
modified; see the counterexample.) -/
theorem c4_early_checks_commit_nothing (dv d dc : List ℕ) (Lv L Lc : LoopWire)
    (pDec : ℕ → List ℕ → Option (List Pt64 × List ℕ))
    (recomputeBound : List Pt64 → Bool → WireRect)
    (hv : dv.length < 1 ∨ (get8 dv).1 ≠ 1)
    (hl : d.length < 4 ∨ (get32 d).1 > decodeMaxNumVertices ∨
      (get32 d).2.length < (get32 d).1 * 24 + 1 + 4)
    (hc : getVarint dc = none ∨
      ∃ n rest, getVarint dc = some (n, rest) ∧ (n = 0 ∨ n > decodeMaxNumVertices)) :
    ((decodeLoop dv Lv).1 = false ∧ (decodeLoop dv Lv).2.1 = Lv) ∧
    ((decodeInternal d L).1 = false ∧ (decodeInternal d L).2.1 = L) ∧
    decodeCompressed pDec recomputeBound dc Lc = (false, Lc) := by
  refine ⟨?_, ?_, ?_⟩
  · unfold decodeLoop
    split_ifs with h1
    · exact ⟨rfl, rfl⟩
    · rcases hg : get8 dv with ⟨v, d1⟩
      simp only [hg] at hv ⊢
      rcases hv with hv | hv
      · omega
      · rw [if_neg hv]
        exact ⟨rfl, rfl⟩
  · unfold decodeInternal
    split_ifs with h1
    · exact ⟨rfl, rfl⟩
    · rcases hg : get32 d with ⟨n, d1⟩
      simp only [hg] at hl ⊢
      rcases hl with hl | hl | hl
      · omega
      · rw [if_pos hl]; exact ⟨rfl, rfl⟩
      · by_cases h2 : n > decodeMaxNumVertices
        · rw [if_pos h2]; exact ⟨rfl, rfl⟩
        · rw [if_neg h2, if_pos hl]; exact ⟨rfl, rfl⟩
  · unfold decodeCompressed
    rcases hg : getVarint dc with _ | ⟨n, rest⟩
    · simp only [hg]
    · simp only [hg]
      rcases hc with hc | ⟨n', rest', hc, hn'⟩
      · rw [hg] at hc; exact absurd hc (by simp)
      · rw [hg] at hc
        injection hc with hc
        injection hc with hc1 hc2
        subst hc1
        rw [if_pos hn']

/-- C4 witness: the amended theorem instantiated at an empty lossless
input, an empty internal input, and a zero-count compressed input. -/
theorem c4_witness :
    ((decodeLoop [] ⟨[], false, 0, ⟨0, 0, 0, 0⟩⟩).1 = false ∧
      (decodeLoop [] ⟨[], false, 0, ⟨0, 0, 0, 0⟩⟩).2.1 = ⟨[], false, 0, ⟨0, 0, 0, 0⟩⟩) ∧
    ((decodeInternal [] ⟨[], false, 0, ⟨0, 0, 0, 0⟩⟩).1 = false ∧
      (decodeInternal [] ⟨[], false, 0, ⟨0, 0, 0, 0⟩⟩).2.1 = ⟨[], false, 0, ⟨0, 0, 0, 0⟩⟩) ∧
    decodeCompressed (fun _ _ => none) (fun _ _ => ⟨0, 0, 0, 0⟩) [0]
      ⟨[], false, 0, ⟨0, 0, 0, 0⟩⟩ = (false, ⟨[], false, 0, ⟨0, 0, 0, 0⟩⟩) :=
  c4_early_checks_commit_nothing [] [] [0] _ _ _ _ _
    (Or.inl (by decide)) (Or.inl (by decide))
    (Or.inr ⟨0, [], by decide, Or.inl rfl⟩)

/-- C4 counterexample: decoding the 10-byte input — version 1, vertex count
0, origin byte 1, depth 7, and no bytes for the bound — passes every length
and size check, fails at the trailing bound decode, and returns false with
the vertex buffer, origin_inside and depth already replaced: the loop is
changed although `Decode` reported failure. -/
theorem c4_counterexample :
    (decodeLoop (put8 1 ++ put32 0 ++ put8 1 ++ put32 7)
      ⟨[⟨9, 9, 9⟩], false, 0, ⟨1, 1, 1, 1⟩⟩).1 = false ∧
    (decodeLoop (put8 1 ++ put32 0 ++ put8 1 ++ put32 7)
      ⟨[⟨9, 9, 9⟩], false, 0, ⟨1, 1, 1, 1⟩⟩).2.1 ≠
      ⟨[⟨9, 9, 9⟩], false, 0, ⟨1, 1, 1, 1⟩⟩ := by decide

/-- C5 (amended): for every loop with at least one and at most 50,000,000
vertices (and in-range depth and well-formed double patterns), encoding
with the lossless v1 format followed by decoding succeeds and reproduces
the loop exactly — equal vertex sequence, origin_inside, depth and bound —
and the compressed round trip reproduces vertices, origin_inside and depth
exactly, with the bound reproduced exactly when the bound-encoded property
bit is present (vertex count at least 64) and re-derived from the decoded
vertices otherwise.  The external compressed point codec enters through its
round-trip property `hpd`.  (The vertex-count limit and, for the compressed
codec, the zero-vertex rejection are forced by decode; see the
counterexample.) -/
theorem c5_encode_decode_round_trip (L L0 L1 : LoopWire)
    (pEnc : List Pt64 → List ℕ) (pDec : ℕ → List ℕ → Option (List Pt64 × List ℕ))
    (recomputeBound : List Pt64 → Bool → WireRect)
    (h1 : 1 ≤ L.vertices.length)
    (hn : L.vertices.length ≤ decodeMaxNumVertices)
    (hp : ∀ p ∈ L.vertices, p.wf)
    (hd : L.depth < 2 ^ 32)
    (hb : L.bound.wf)
    (hpd : ∀ rest, pDec L.vertices.length (pEnc L.vertices ++ rest) =
      some (L.vertices, rest)) :
    decodeLoop (encodeLoop L) L0 = (true, L, []) ∧
    decodeCompressed pDec recomputeBound (encodeCompressed pEnc L) L1 =
      (true, { vertices := L.vertices, originInside := L.originInside,
               depth := L.depth,
               bound := if 64 ≤ L.vertices.length then L.bound
                        else recomputeBound L.vertices L.originInside }) :=
  ⟨decodeLoop_encodeLoop L L0 hn hp hd hb,
   decodeCompressed_encodeCompressed pEnc pDec recomputeBound L L1 h1 hn hpd hb⟩

/-- C5 witness: the round trip at a concrete one-vertex loop, with the
byte-copying point codec. -/
theorem c5_witness :
    decodeLoop (encodeLoop ⟨[⟨1, 2, 3⟩], true, 5, ⟨10, 20, 30, 40⟩⟩)
      ⟨[], false, 0, ⟨0, 0, 0, 0⟩⟩ =
      (true, ⟨[⟨1, 2, 3⟩], true, 5, ⟨10, 20, 30, 40⟩⟩, []) ∧
    decodeCompressed pdC rbC
      (encodeCompressed peC ⟨[⟨1, 2, 3⟩], true, 5, ⟨10, 20, 30, 40⟩⟩)
      ⟨[], false, 0, ⟨0, 0, 0, 0⟩⟩ =
      (true, { vertices := [⟨1, 2, 3⟩], originInside := true, depth := 5,
               bound := if 64 ≤ ([⟨(1 : ℕ), 2, 3⟩] : List Pt64).length
                        then ⟨10, 20, 30, 40⟩
                        else rbC [⟨1, 2, 3⟩] true }) :=
  c5_encode_decode_round_trip ⟨[⟨1, 2, 3⟩], true, 5, ⟨10, 20, 30, 40⟩⟩ _ _
    peC pdC rbC (by decide) (by decide) (by decide) (by decide) (by decide)
    (fun rest => by
      unfold pdC peC
      rw [if_pos (by simp [putPoint, put64])]
      exact congrArg some (getPoints_append [⟨1, 2, 3⟩] rest (by decide)))

/-- C5 counterexample: the zero-vertex loop (the state of a
default-initialized loop, which the lossless codec round-trips) does NOT
round-trip through the compressed codec: `DecodeCompressed` rejects the
decoded vertex count 0 and returns false, so the claimed "for every loop"
round trip fails. -/
theorem c5_counterexample :
    (decodeCompressed pdC rbC
      (encodeCompressed peC ⟨[], false, 0, ⟨0, 0, 0, 0⟩⟩)
      ⟨[], false, 0, ⟨0, 0, 0, 0⟩⟩).1 = false := by
  have h0 : putVarint 0 = [0] := by rw [putVarint]; norm_num
  unfold encodeCompressed decodeCompressed
  simp [h0, peC, getVarint]

/-- C9: the two decoders disagree on zero-vertex input — `DecodeCompressed`
rejects every input whose decoded vertex count is 0 (leaving the loop
unchanged), while the lossless decode accepts a zero-vertex encoding and
produces the zero-vertex (uninitialized) loop; and both decoders reject a
vertex count exceeding `decode_max_num_vertices`. -/
theorem c9_zero_vertex_and_limit
    (pDec : ℕ → List ℕ → Option (List Pt64 × List ℕ))
    (recomputeBound : List Pt64 → Bool → WireRect)
    (dc dcBig d : List ℕ) (Lc LcBig Ld L0 : LoopWire)
    (oi : Bool) (dep : ℕ) (bd : WireRect)
    (h0 : ∃ rest, getVarint dc = some (0, rest))
    (hbig : ∃ m rest, getVarint dcBig = some (m, rest) ∧ decodeMaxNumVertices < m)
    (hdm : decodeMaxNumVertices < (get32 d).1)
    (hdep : dep < 2 ^ 32) (hbd : bd.wf) :
    decodeCompressed pDec recomputeBound dc Lc = (false, Lc) ∧
    decodeCompressed pDec recomputeBound dcBig LcBig = (false, LcBig) ∧
    ((decodeInternal d Ld).1 = false ∧ (decodeInternal d Ld).2.1 = Ld) ∧
    decodeLoop (encodeLoop ⟨[], oi, dep, bd⟩) L0 = (true, ⟨[], oi, dep, bd⟩, []) := by
  refine ⟨?_, ?_, ?_, ?_⟩
  · obtain ⟨rest, h0⟩ := h0
    unfold decodeCompressed
    rw [h0]
    simp
  · obtain ⟨m, rest, hbig, hm⟩ := hbig
    unfold decodeCompressed
    simp only [hbig]
    rw [if_pos (Or.inr hm)]
  · unfold decodeInternal
    split_ifs with h1
    · exact ⟨rfl, rfl⟩
    · rcases hg : get32 d with ⟨n, d1⟩
      simp only [hg] at hdm ⊢
      rw [if_pos hdm]
      exact ⟨rfl, rfl⟩
  · exact decodeLoop_encodeLoop ⟨[], oi, dep, bd⟩ L0 (Nat.zero_le _) (by simp)
      hdep hbd

/-- C9 witness: zero-count compressed input `[0]`, over-limit count
50,000,001 for both decoders, and a concrete zero-vertex lossless round
trip. -/
theorem c9_witness :
    decodeCompressed (fun _ _ => none) (fun _ _ => ⟨0, 0, 0, 0⟩) [0]
      ⟨[], false, 0, ⟨0, 0, 0, 0⟩⟩ = (false, ⟨[], false, 0, ⟨0, 0, 0, 0⟩⟩) ∧
    decodeCompressed (fun _ _ => none) (fun _ _ => ⟨0, 0, 0, 0⟩)
      [129, 225, 235, 23] ⟨[], false, 0, ⟨0, 0, 0, 0⟩⟩ =
      (false, ⟨[], false, 0, ⟨0, 0, 0, 0⟩⟩) ∧
    ((decodeInternal (put32 50000001) ⟨[], false, 0, ⟨0, 0, 0, 0⟩⟩).1 = false ∧
      (decodeInternal (put32 50000001) ⟨[], false, 0, ⟨0, 0, 0, 0⟩⟩).2.1 =
        ⟨[], false, 0, ⟨0, 0, 0, 0⟩⟩) ∧
    decodeLoop (encodeLoop ⟨[], true, 7, ⟨1, 2, 3, 4⟩⟩) ⟨[⟨5, 5, 5⟩], false, 9, ⟨6, 6, 6, 6⟩⟩ =
      (true, ⟨[], true, 7, ⟨1, 2, 3, 4⟩⟩, []) :=
  c9_zero_vertex_and_limit (fun _ _ => none) (fun _ _ => ⟨0, 0, 0, 0⟩)
    [0] [129, 225, 235, 23] (put32 50000001) _ _ _ _ true 7 ⟨1, 2, 3, 4⟩
    ⟨[], by decide⟩ ⟨50000001, [], by decide, by decide⟩
    (by decide) (by decide) (by decide)

/-! ### `CompareBoundary` -/

/-- Helper: once `WedgesCross` has reported a crossing the relation state is
frozen (the index walk has stopped). -/
theorem cbr_foldl_crossed_absorb (cs : List Bool) (st : CBRState)
    (h : st.crossed = true) : cs.foldl cbrStep st = st := by
  induction cs with
  | nil => rfl
  | cons b cs ih => simp [cbrStep, h, ih]

/-- Helper: the `CompareBoundaryRelation` fold, characterized: starting from
flags `(c, e)` that are not yet both set, the walk reports a wedge crossing
iff some processed wedge is contained and some is not; and when it does not,
the `contains_edge` flag is the disjunction of the wedge results and the
shared-vertex flag records that some wedge was processed. -/
theorem cbr_foldl_char (cs : List Bool) :
    ∀ f c e : Bool, (c && e) = false →
      ((cs.foldl cbrStep ⟨f, c, e, false⟩).crossed
          = ((c || cs.any id) && (e || cs.any (fun b => !b)))) ∧
      ((cs.foldl cbrStep ⟨f, c, e, false⟩).crossed = false →
        (cs.foldl cbrStep ⟨f, c, e, false⟩).containsEdge = (c || cs.any id) ∧
        (cs.foldl cbrStep ⟨f, c, e, false⟩).foundShared = (f || !cs.isEmpty)) := by
  induction cs with
  | nil =>
    intro f c e h
    exact ⟨by simpa using h, fun _ => by simp⟩
  | cons b cs ih =>
    intro f c e h
    simp only [List.foldl_cons]
    have hstep : cbrStep ⟨f, c, e, false⟩ b =
        ⟨true, c || b, e || !b, (c || b) && (e || !b)⟩ := by
      simp [cbrStep]
    rw [hstep]
    by_cases hcb : ((c || b) && (e || !b)) = true
    · obtain ⟨h1, h2⟩ : (c || b) = true ∧ (e || !b) = true := by
        simpa [Bool.and_eq_true] using hcb
      rw [hcb, cbr_foldl_crossed_absorb cs _ rfl]
      constructor
      · simp only [List.any_cons, id_eq, ← Bool.or_assoc, h1, h2]
        simp
      · intro hcr
        simp at hcr
    · have hcb' : ((c || b) && (e || !b)) = false := by
        cases hx : ((c || b) && (e || !b)) with
        | false => rfl
        | true => exact absurd hx hcb
      rw [hcb']
      obtain ⟨ih1, ih2⟩ := ih true (c || b) (e || !b) hcb'
      refine ⟨?_, ?_⟩
      · rw [ih1]
        simp [List.any_cons, Bool.or_assoc]
      · intro hcr
        obtain ⟨ihc, ihf⟩ := ih2 hcr
        refine ⟨?_, ?_⟩
        · rw [ihc]
          simp [List.any_cons, Bool.or_assoc]
        · rw [ihf]
          simp

/-- C6: `CompareBoundary` returns −1 when the bounds do not intersect, +1
when A is full, −1 when B is full, 0 when the relation walk finds a
crossing (a proper edge crossing, or shared-vertex wedges showing both a
contained and an excluded edge of B), +1 or −1 according to the
`contains_edge` flag when a shared vertex was seen, and otherwise +1
exactly when A contains B's vertex 0 and −1 otherwise — the code's walk
agrees with this declarative description on all inputs, in particular on
every pair of loops satisfying the documented preconditions (A, B non-empty
and B not simultaneously full and a hole). -/
theorem c6_compare_boundary {Pt : Type} [DecidableEq Pt]
    (boundsIntersect aFull bFull revB : Bool)
    (occw : Pt → Pt → Pt → Pt → Bool) (wedges : List (Pt × Pt × Pt × Pt))
    (edgeCross containsBv0 : Bool) :
    compareBoundary boundsIntersect aFull bFull revB occw wedges edgeCross
        containsBv0 =
      compareBoundaryClaimed boundsIntersect aFull bFull revB occw wedges
        edgeCross containsBv0 := by
  unfold compareBoundary compareBoundaryClaimed cbrInit
  dsimp only
  by_cases h1 : boundsIntersect = false
  · rw [if_pos h1, if_pos h1]
  · rw [if_neg h1, if_neg h1]
    by_cases h2 : aFull = true
    · rw [if_pos h2, if_pos h2]
    · rw [if_neg h2, if_neg h2]
      by_cases h3 : bFull = true
      · rw [if_pos h3, if_pos h3]
      · rw [if_neg h3, if_neg h3]
        rw [← List.foldl_map]
        generalize (wedges.map fun w : Pt × Pt × Pt × Pt =>
          wedgeContainsSemiwedge occw w.1 w.2.1 w.2.2.1 w.2.2.2 revB) = cs
        obtain ⟨hc, himpl⟩ := cbr_foldl_char cs false false false rfl
        simp only [Bool.false_or] at hc himpl
        rw [hc]
        by_cases hcross : (edgeCross || (cs.any id && cs.any fun b => !b)) = true
        · rw [if_pos hcross, if_pos hcross]
        · rw [if_neg hcross, if_neg hcross]
          have hcb : (edgeCross || (cs.any id && cs.any fun b => !b)) = false := by
            cases hx : (edgeCross || (cs.any id && cs.any fun b => !b)) with
            | false => rfl
            | true => exact absurd hx hcross
          have hstc : (cs.foldl cbrStep ⟨false, false, false, false⟩).crossed = false := by
            rw [hc]
            cases hX : (cs.any id && cs.any fun b => !b) with
            | false => rfl
            | true => rw [hX, Bool.or_true] at hcb; exact absurd hcb (by simp)
          obtain ⟨ihc, ihf⟩ := himpl hstc
          rw [ihc, ihf]
          rcases cs with _ | ⟨c0, cs'⟩
          · simp
          · simp

/-! ### `FindVertex` -/

section FindVertexThm

variable {Pt : Type} [LinearOrder Pt] [Inhabited Pt]

/-- Helper: `vertex(j)` is a vertex of the loop whenever there is one. -/
theorem idx_mem (vs : List Pt) (j : ℕ) (h : 0 < vs.length) : idx vs j ∈ vs := by
  unfold idx
  have hlt : j % vs.length < vs.length := Nat.mod_lt _ h
  rw [List.getD_eq_getElem _ _ hlt]
  exact List.getElem_mem hlt

/-- Helper: a successful clipped-edge scan returns either the start index of
a scanned edge whose start vertex is `p` (mapped to `n` when it is 0) or the
successor index of a scanned edge whose end vertex is `p`. -/
theorem scanEdges_some (vs : List Pt) (p : Pt) (l : List ℕ) (r : ℕ)
    (h : scanEdges vs p l = some r) :
    ∃ ai ∈ l, (idx vs ai = p ∧ r = (if ai = 0 then vs.length else ai)) ∨
      (idx vs (ai + 1) = p ∧ r = ai + 1) := by
  induction l with
  | nil => simp [scanEdges] at h
  | cons a l ih =>
    rw [scanEdges] at h
    by_cases ha1 : idx vs a = p
    · rw [if_pos ha1] at h
      exact ⟨a, by simp, Or.inl ⟨ha1, (Option.some.inj h).symm⟩⟩
    · rw [if_neg ha1] at h
      by_cases ha2 : idx vs (a + 1) = p
      · rw [if_pos ha2] at h
        exact ⟨a, by simp, Or.inr ⟨ha2, (Option.some.inj h).symm⟩⟩
      · rw [if_neg ha2] at h
        obtain ⟨ai, hmem, hcase⟩ := ih h
        exact ⟨ai, by simp [hmem], hcase⟩

/-- Helper: a failed scan means no scanned edge touches `p`. -/
theorem scanEdges_none_forall (vs : List Pt) (p : Pt) (l : List ℕ)
    (h : scanEdges vs p l = none) :
    ∀ ai ∈ l, idx vs ai ≠ p ∧ idx vs (ai + 1) ≠ p := by
  induction l with
  | nil => simp
  | cons a l ih =>
    rw [scanEdges] at h
    by_cases ha1 : idx vs a = p
    · rw [if_pos ha1] at h
      exact absurd h (by simp)
    · rw [if_neg ha1] at h
      by_cases ha2 : idx vs (a + 1) = p
      · rw [if_pos ha2] at h
        exact absurd h (by simp)
      · rw [if_neg ha2] at h
        intro ai hai
        rcases List.mem_cons.mp hai with rfl | hai
        · exact ⟨ha1, ha2⟩
        · exact ih h ai hai

/-- C10: `FindVertex(p)` returns an index `i ∈ [1, num_vertices]` with
`vertex(i) = p` whenever `p` is a vertex of the loop, returns −1 when `p`
is no vertex, and never returns 0 (a match at vertex 0 is reported as
`num_vertices`).  The index lookup of the large-loop path enters through
`locate` with its two soundness properties: located edge ids are valid, and
when `p` is a vertex the located cell holds an edge touching it. -/
theorem c10_find_vertex (locate : Pt → Option (List ℕ)) (vs : List Pt) (p : Pt)
    (hval : ∀ l, locate p = some l → ∀ ai ∈ l, ai < vs.length)
    (hloc : 10 ≤ vs.length → p ∈ vs →
      ∃ l, locate p = some l ∧ ∃ ai ∈ l, idx vs ai = p ∨ idx vs (ai + 1) = p) :
    (p ∈ vs → 1 ≤ findVertex locate vs p ∧ findVertex locate vs p ≤ vs.length ∧
      idx vs (findVertex locate vs p).toNat = p) ∧
    (p ∉ vs → findVertex locate vs p = -1) ∧
    findVertex locate vs p ≠ 0 := by
  unfold findVertex
  by_cases hsmall : vs.length < 10
  · rw [if_pos hsmall]
    rcases hf : (List.range vs.length).find? (fun j => decide (idx vs (j + 1) = p))
      with _ | j
    · simp only [hf]
      refine ⟨?_, fun _ => by trivial, by decide⟩
      intro hp
      exfalso
      obtain ⟨⟨j0, hj0⟩, hget⟩ := List.mem_iff_get.mp hp
      have hn : 0 < vs.length := by omega
      have hjlt : (j0 + (vs.length - 1)) % vs.length < vs.length := Nat.mod_lt _ hn
      have hidx : idx vs ((j0 + (vs.length - 1)) % vs.length + 1) = p := by
        unfold idx
        have h1 : ((j0 + (vs.length - 1)) % vs.length + 1) % vs.length =
            (j0 + (vs.length - 1) + 1) % vs.length := Nat.mod_add_mod ..
        have h2 : j0 + (vs.length - 1) + 1 = j0 + vs.length := by omega
        rw [h1, h2, Nat.add_mod_right, Nat.mod_eq_of_lt hj0,
          List.getD_eq_getElem _ _ hj0]
        simpa [List.get_eq_getElem] using hget
      have := List.find?_eq_none.mp hf _ (List.mem_range.mpr hjlt)
      simp only [decide_eq_true_eq] at this
      exact this hidx
    · simp only [hf]
      have hpj : idx vs (j + 1) = p := by
        have := List.find?_some hf
        simpa using this
      have hjlt : j < vs.length := List.mem_range.mp (List.mem_of_find?_eq_some hf)
      have htn : ((j : ℤ) + 1).toNat = j + 1 := by omega
      refine ⟨fun _ => ⟨by omega, by omega, by rw [htn]; exact hpj⟩, ?_, by omega⟩
      intro hnp
      exact absurd (hpj ▸ idx_mem vs (j + 1) (by omega)) hnp
  · rw [if_neg hsmall]
    have h10 : 10 ≤ vs.length := by omega
    have hn : 0 < vs.length := by omega
    rcases hl : locate p with _ | l
    · simp only [hl]
      refine ⟨?_, fun _ => by trivial, by decide⟩
      intro hp
      obtain ⟨l', hl', _⟩ := hloc h10 hp
      rw [hl] at hl'
      exact absurd hl' (by simp)
    · simp only [hl]
      rcases hs : scanEdges vs p l with _ | r
      · simp only [hs]
        refine ⟨?_, fun _ => by trivial, by decide⟩
        intro hp
        exfalso
        obtain ⟨l', hl', ai, hmem, hcase⟩ := hloc h10 hp
        rw [hl] at hl'
        injection hl' with hl'
        subst hl'
        obtain ⟨hne1, hne2⟩ := scanEdges_none_forall vs p l hs ai hmem
        rcases hcase with hcase | hcase
        · exact hne1 hcase
        · exact hne2 hcase
      · simp only [hs]
        obtain ⟨ai, hmem, hcase⟩ := scanEdges_some vs p l r hs
        have hailt : ai < vs.length := hval l hl ai hmem
        rcases hcase with ⟨hip, hr⟩ | ⟨hip, hr⟩
        · have hmemp : p ∈ vs := hip ▸ idx_mem vs ai hn
          by_cases hz : ai = 0
          · subst hz
            have hr' : r = vs.length := by simpa using hr
            subst hr'
            have hidx : idx vs vs.length = p := by
              unfold idx at hip ⊢
              rw [Nat.mod_self]
              rw [Nat.zero_mod] at hip
              exact hip
            refine ⟨fun _ => ⟨by omega, by omega, ?_⟩, fun hnp => absurd hmemp hnp,
              by omega⟩
            have htn : ((vs.length : ℤ)).toNat = vs.length := by omega
            rw [htn]
            exact hidx
          · rw [if_neg hz] at hr
            subst hr
            refine ⟨fun _ => ⟨by omega, by omega, ?_⟩, fun hnp => absurd hmemp hnp,
              by omega⟩
            have htn : ((r : ℤ)).toNat = r := by omega
            rw [htn]
            exact hip
        · have hmemp : p ∈ vs := hip ▸ idx_mem vs (ai + 1) hn
          subst hr
          refine ⟨fun _ => ⟨by omega, by omega, ?_⟩, fun hnp => absurd hmemp hnp,
            by omega⟩
          simpa using hip

end FindVertexThm

/-- C10 witness: the exhaustive-search path at a concrete 3-vertex loop
(the locate oracle is never consulted below 10 vertices). -/
theorem c10_witness :
    (6 : ℕ) ∈ ([5, 6, 7] : List ℕ) ∧
    (1 ≤ findVertex (fun _ => none) ([5, 6, 7] : List ℕ) 6 ∧
      findVertex (fun _ => none) ([5, 6, 7] : List ℕ) 6 ≤ ([5, 6, 7] : List ℕ).length ∧
      idx ([5, 6, 7] : List ℕ)
        (findVertex (fun _ => none) ([5, 6, 7] : List ℕ) 6).toNat = 6) :=
  ⟨by decide, (c10_find_vertex (fun _ => none) [5, 6, 7] 6
    (fun l hl => by simp at hl)
    (fun h10 _ => absurd h10 (by decide))).1 (by decide)⟩

/-! ### Turning angle: the canonical vertex order -/

section TurningThm

variable {Pt : Type} [LinearOrder Pt] [Inhabited Pt]

/-- Helper: the min-scan stays in range. -/
theorem minFirstIdx_lt (vs : List Pt) (h : 0 < vs.length) :
    minFirstIdx vs < vs.length := by
  unfold minFirstIdx
  have key : ∀ (l : List ℕ) (a : ℕ), a < vs.length → (∀ i ∈ l, i < vs.length) →
      l.foldl (fun first i =>
        if vs.getD i default < vs.getD first default then i else first) a <
        vs.length := by
    intro l
    induction l with
    | nil => intro a ha _; exact ha
    | cons b l ih =>
      intro a ha hl
      simp only [List.foldl_cons]
      apply ih
      · by_cases hb : vs.getD b default < vs.getD a default
        · rw [if_pos hb]; exact hl b (by simp)
        · rw [if_neg hb]; exact ha
      · intro i hi; exact hl i (by simp [hi])
  exact key _ 0 h (fun i hi => List.mem_range.mp hi)

/-- Helper: the min-scan returns an index holding a smallest vertex. -/
theorem minFirstIdx_min (vs : List Pt) :
    ∀ i < vs.length, vs.getD (minFirstIdx vs) default ≤ vs.getD i default := by
  unfold minFirstIdx
  have key : ∀ (l : List ℕ) (a : ℕ),
      vs.getD (l.foldl (fun first i =>
        if vs.getD i default < vs.getD first default then i else first) a) default ≤
        vs.getD a default ∧
      ∀ i ∈ l, vs.getD (l.foldl (fun first i =>
        if vs.getD i default < vs.getD first default then i else first) a) default ≤
        vs.getD i default := by
    intro l
    induction l with
    | nil => intro a; exact ⟨le_refl _, by simp⟩
    | cons b l ih =>
      intro a
      simp only [List.foldl_cons]
      by_cases hb : vs.getD b default < vs.getD a default
      · rw [if_pos hb]
        refine ⟨le_trans (ih b).1 (le_of_lt hb), ?_⟩
        intro i hi
        rcases List.mem_cons.mp hi with rfl | hi
        · exact (ih i).1
        · exact (ih b).2 i hi
      · rw [if_neg hb]
        refine ⟨(ih a).1, ?_⟩
        intro i hi
        rcases List.mem_cons.mp hi with rfl | hi
        · exact le_trans (ih a).1 (not_lt.mp hb)
        · exact (ih a).2 i hi
  intro i hi
  exact (key (List.range vs.length) 0).2 i (List.mem_range.mpr hi)

/-- Helper: with distinct vertices, any in-range index holding a smallest
vertex IS the canonical first index. -/
theorem minFirstIdx_unique (vs : List Pt) (hnd : vs.Nodup) (j : ℕ)
    (hj : j < vs.length)
    (hmin : ∀ i < vs.length, vs.getD j default ≤ vs.getD i default) :
    j = minFirstIdx vs := by
  have hn : 0 < vs.length := by omega
  have hf := minFirstIdx_lt vs hn
  have heq : vs.getD j default = vs.getD (minFirstIdx vs) default :=
    le_antisymm (hmin _ hf) (minFirstIdx_min vs j hj)
  rw [List.getD_eq_getElem _ _ hj, List.getD_eq_getElem _ _ hf] at heq
  have := List.nodup_iff_injective_get.mp hnd
    (show vs.get ⟨j, hj⟩ = vs.get ⟨minFirstIdx vs, hf⟩ by simpa using heq)
  exact congrArg Fin.val this

/-- Helper: the canonical minimum is below every member value. -/
theorem minFirstIdx_le_of_mem (vs : List Pt) (x : Pt) (hx : x ∈ vs) :
    vs.getD (minFirstIdx vs) default ≤ x := by
  obtain ⟨⟨i, hi⟩, rfl⟩ := List.mem_iff_get.mp hx
  have := minFirstIdx_min vs i hi
  rw [List.getD_eq_getElem _ _ hi] at this
  simpa using this

/-- Helper: the canonical minimum value is a member. -/
theorem minFirstIdx_val_mem (vs : List Pt) (h : 0 < vs.length) :
    vs.getD (minFirstIdx vs) default ∈ vs := by
  rw [List.getD_eq_getElem _ _ (minFirstIdx_lt vs h)]
  exact List.getElem_mem _

/-- Helper: permuted lists have the same minimum value. -/
theorem minFirstIdx_val_eq_of_perm (vs ws : List Pt) (hperm : vs.Perm ws)
    (h : 0 < vs.length) :
    ws.getD (minFirstIdx ws) default = vs.getD (minFirstIdx vs) default := by
  have hw : 0 < ws.length := hperm.length_eq ▸ h
  exact le_antisymm
    (minFirstIdx_le_of_mem ws _ (hperm.mem_iff.mp (minFirstIdx_val_mem vs h)))
    (minFirstIdx_le_of_mem vs _ (hperm.symm.mem_iff.mp (minFirstIdx_val_mem ws hw)))

/-- Helper: `vertex(·)` only depends on the index mod `n`. -/
theorem idx_congr (vs : List Pt) (a b : ℕ) (h : a % vs.length = b % vs.length) :
    idx vs a = idx vs b := by unfold idx; rw [h]

/-- Helper: `vertex(·)` is `n`-periodic. -/
theorem idx_add_len (vs : List Pt) (a : ℕ) : idx vs (a + vs.length) = idx vs a :=
  idx_congr vs _ _ (Nat.add_mod_right a vs.length)

/-- Helper: indices equal or apart by exactly one period give the same
vertex. -/
theorem idx_shift (vs : List Pt) (a b : ℕ)
    (h : a = b ∨ a = b + vs.length ∨ b = a + vs.length) :
    idx vs a = idx vs b := by
  rcases h with rfl | h | h
  · rfl
  · rw [h]; exact idx_add_len vs b
  · rw [h]; exact (idx_add_len vs a).symm

/-- Helper: a vertex of the rotated loop is the shifted vertex of the
original. -/
theorem idx_rotate (vs : List Pt) (k j : ℕ) :
    idx (vs.rotate k) j = idx vs (j + k) := by
  rcases Nat.eq_zero_or_pos vs.length with h0 | hpos
  · have : vs = [] := List.length_eq_zero.mp h0
    subst this
    simp [idx]
  · unfold idx
    rw [List.length_rotate]
    have hlt : j % vs.length < vs.length := Nat.mod_lt _ hpos
    have hlt' : j % vs.length < (vs.rotate k).length := by
      rw [List.length_rotate]; exact hlt
    rw [List.getD_eq_getElem _ _ hlt', List.getElem_rotate,
      List.getD_eq_getElem _ _ (Nat.mod_lt _ hpos)]
    congr 1
    exact Nat.mod_add_mod j vs.length k

/-- Helper: a vertex of the reversed loop, by index. -/
theorem idx_reverse (vs : List Pt) (j : ℕ) (h : 0 < vs.length) :
    idx vs.reverse j = idx vs (vs.length - 1 - j % vs.length) := by
  unfold idx
  rw [List.length_reverse]
  have hj : j % vs.length < vs.length := Nat.mod_lt _ h
  have hj' : j % vs.length < vs.reverse.length := by
    rw [List.length_reverse]; exact hj
  rw [List.getD_eq_getElem _ _ hj', List.getElem_reverse,
    List.getD_eq_getElem _ _ (Nat.mod_lt _ h)]
  congr 1
  exact (Nat.mod_eq_of_lt (by omega)).symm

/-- Helper: rotation moves the canonical first index by the rotation
amount. -/
theorem minFirstIdx_rotate (vs : List Pt) (hnd : vs.Nodup) (h : 0 < vs.length)
    (k : ℕ) :
    (minFirstIdx (vs.rotate k) + k) % vs.length = minFirstIdx vs := by
  have hperm := List.rotate_perm vs k
  have hr : 0 < (vs.rotate k).length := by rw [List.length_rotate]; exact h
  have hf' : minFirstIdx (vs.rotate k) < vs.length := by
    have := minFirstIdx_lt (vs.rotate k) hr
    rwa [List.length_rotate] at this
  have hval : vs.getD ((minFirstIdx (vs.rotate k) + k) % vs.length) default =
      (vs.rotate k).getD (minFirstIdx (vs.rotate k)) default := by
    have hx := idx_rotate vs k (minFirstIdx (vs.rotate k))
    unfold idx at hx
    rw [List.length_rotate, Nat.mod_eq_of_lt hf'] at hx
    exact hx.symm
  refine minFirstIdx_unique vs hnd
    ((minFirstIdx (vs.rotate k) + k) % vs.length) (Nat.mod_lt _ h) ?_
  intro i hi
  rw [hval, minFirstIdx_val_eq_of_perm vs (vs.rotate k) hperm.symm h]
  exact minFirstIdx_min vs i hi

/-- Helper: the canonical vertex walk of a rotated loop visits the same
vertices as the original. -/
theorem idx_rotate_canonical (vs : List Pt) (hnd : vs.Nodup)
    (h : 0 < vs.length) (k j : ℕ) :
    idx (vs.rotate k) (minFirstIdx (vs.rotate k) + j) =
      idx vs (minFirstIdx vs + j) := by
  rw [idx_rotate]
  apply idx_congr
  calc (minFirstIdx (vs.rotate k) + j + k) % vs.length
      = ((minFirstIdx (vs.rotate k) + k) % vs.length + j) % vs.length := by
        rw [Nat.mod_add_mod]
        congr 1
        omega
    _ = (minFirstIdx vs + j) % vs.length := by
        rw [minFirstIdx_rotate vs hnd h k]

/-- Helper: reversal mirrors the canonical first index. -/
theorem minFirstIdx_reverse (vs : List Pt) (hnd : vs.Nodup)
    (h : 0 < vs.length) :
    minFirstIdx vs.reverse = vs.length - 1 - minFirstIdx vs := by
  have hrev : 0 < vs.reverse.length := by rw [List.length_reverse]; exact h
  have hf' : minFirstIdx vs.reverse < vs.length := by
    have := minFirstIdx_lt vs.reverse hrev
    rwa [List.length_reverse] at this
  have hval : vs.getD (vs.length - 1 - minFirstIdx vs.reverse) default =
      vs.reverse.getD (minFirstIdx vs.reverse) default := by
    have hx := idx_reverse vs (minFirstIdx vs.reverse) h
    unfold idx at hx
    rw [List.length_reverse, Nat.mod_eq_of_lt hf',
      Nat.mod_eq_of_lt (show vs.length - 1 - minFirstIdx vs.reverse < vs.length
        by omega)] at hx
    exact hx.symm
  have hkey : vs.length - 1 - minFirstIdx vs.reverse = minFirstIdx vs := by
    refine minFirstIdx_unique vs hnd (vs.length - 1 - minFirstIdx vs.reverse)
      (by omega) ?_
    intro i hi
    rw [hval, minFirstIdx_val_eq_of_perm vs vs.reverse (List.reverse_perm vs).symm h]
    exact minFirstIdx_min vs i hi
  omega

/-- Helper: the canonical vertex walk of the reversed loop, by offset. -/
theorem idx_reverse_canonical (vs : List Pt) (hnd : vs.Nodup)
    (h : 0 < vs.length) (j : ℕ) :
    idx vs.reverse (minFirstIdx vs.reverse + j) =
      idx vs (minFirstIdx vs + (vs.length - j % vs.length)) := by
  have hf := minFirstIdx_lt vs h
  have hr : j % vs.length < vs.length := Nat.mod_lt _ h
  rw [idx_reverse _ _ h, minFirstIdx_reverse vs hnd h]
  apply idx_congr
  set n := vs.length with hn
  set f := minFirstIdx vs with hfd
  set r := j % n with hrd
  have e1 : (n - 1 - f + j) % n = (n - 1 - f + r) % n := by
    conv_lhs => rw [Nat.add_mod]
    conv_rhs => rw [Nat.add_mod]
    rw [hrd, Nat.mod_mod_of_dvd _ (dvd_refl n)]
  by_cases hrf : r ≤ f
  · have e2 : (n - 1 - f + r) % n = n - 1 - f + r := Nat.mod_eq_of_lt (by omega)
    have e3 : n - 1 - (n - 1 - f + r) = f - r := by omega
    have e4 : f + (n - r) = (f - r) + n := by omega
    rw [e1, e2, e3, Nat.mod_eq_of_lt (by omega : f - r < n), e4,
      Nat.add_mod_right, Nat.mod_eq_of_lt (by omega : f - r < n)]
  · have e2 : n - 1 - f + r = (r - f - 1) + n := by omega
    have e3 : (n - 1 - f + r) % n = r - f - 1 := by
      rw [e2, Nat.add_mod_right]
      exact Nat.mod_eq_of_lt (by omega)
    have e4 : n - 1 - (r - f - 1) = n - r + f := by omega
    have e5 : f + (n - r) = n - r + f := by omega
    rw [e1, e3, e4, e5]

/-- Helper: the reversed canonical walk, for offsets up to one period. -/
theorem idx_reverse_canonical_le (vs : List Pt) (hnd : vs.Nodup)
    (h : 0 < vs.length) (j : ℕ) (hj : j ≤ vs.length) :
    idx vs.reverse (minFirstIdx vs.reverse + j) =
      idx vs (minFirstIdx vs + (vs.length - j)) := by
  rcases eq_or_lt_of_le hj with rfl | hlt
  · rw [idx_reverse_canonical vs hnd h vs.length, Nat.mod_self]
    apply idx_shift
    omega
  · rw [idx_reverse_canonical vs hnd h j, Nat.mod_eq_of_lt hlt]

/-- Helper: the canonical direction choice is rotation-invariant. -/
theorem canonFwd_rotate (vs : List Pt) (hnd : vs.Nodup) (h : 0 < vs.length)
    (k : ℕ) : canonFwd (vs.rotate k) = canonFwd vs := by
  unfold canonFwd
  rw [List.length_rotate, idx_rotate_canonical vs hnd h k 1,
    idx_rotate_canonical vs hnd h k (vs.length - 1)]

/-- Helper: the two neighbours of the canonical first vertex differ when the
loop has at least three distinct vertices. -/
theorem canon_neighbours_ne (vs : List Pt) (hnd : vs.Nodup)
    (h3 : 3 ≤ vs.length) :
    idx vs (minFirstIdx vs + 1) ≠ idx vs (minFirstIdx vs + (vs.length - 1)) := by
  have h : 0 < vs.length := by omega
  have hij : (minFirstIdx vs + 1) % vs.length ≠
      (minFirstIdx vs + (vs.length - 1)) % vs.length := by
    intro hEq
    have h1 : minFirstIdx vs + (vs.length - 1) =
        (minFirstIdx vs + 1) + (vs.length - 2) := by omega
    rw [h1] at hEq
    conv at hEq => rhs; rw [← Nat.mod_add_mod]
    have hylt : (minFirstIdx vs + 1) % vs.length < vs.length := Nat.mod_lt _ h
    by_cases hc : (minFirstIdx vs + 1) % vs.length + (vs.length - 2) < vs.length
    · rw [Nat.mod_eq_of_lt hc] at hEq
      omega
    · have h2 : (minFirstIdx vs + 1) % vs.length + (vs.length - 2) =
          ((minFirstIdx vs + 1) % vs.length - 2) + vs.length := by omega
      rw [h2, Nat.add_mod_right,
        Nat.mod_eq_of_lt (show (minFirstIdx vs + 1) % vs.length - 2 < vs.length
          by omega)] at hEq
      omega
  intro hEq
  unfold idx at hEq
  rw [List.getD_eq_getElem _ _ (Nat.mod_lt _ h),
    List.getD_eq_getElem _ _ (Nat.mod_lt _ h)] at hEq
  exact hij (congrArg Fin.val (List.nodup_iff_injective_get.mp hnd
    (show vs.get ⟨(minFirstIdx vs + 1) % vs.length, Nat.mod_lt _ h⟩ =
        vs.get ⟨(minFirstIdx vs + (vs.length - 1)) % vs.length, Nat.mod_lt _ h⟩
      by simpa using hEq)))

/-- Helper: the canonical direction choice flips under reversal. -/
theorem canonFwd_reverse (vs : List Pt) (hnd : vs.Nodup)
    (h3 : 3 ≤ vs.length) : canonFwd vs.reverse = !canonFwd vs := by
  have h : 0 < vs.length := by omega
  unfold canonFwd
  rw [List.length_reverse,
    idx_reverse_canonical_le vs hnd h 1 (by omega),
    idx_reverse_canonical_le vs hnd h (vs.length - 1) (by omega)]
  have e3 : vs.length - (vs.length - 1) = 1 := by omega
  rw [e3]
  have hne := canon_neighbours_ne vs hnd h3
  rcases lt_trichotomy (idx vs (minFirstIdx vs + 1))
    (idx vs (minFirstIdx vs + (vs.length - 1))) with hlt | hEq | hgt
  · simp [hlt, le_of_lt hlt, not_lt.mpr (le_of_lt hlt)]
  · exact absurd hEq hne
  · simp [hgt, not_lt.mpr (le_of_lt hgt)]

/-- Helper: the canonical triple list is rotation-invariant. -/
theorem turnTriples_rotate (vs : List Pt) (hnd : vs.Nodup)
    (h : 0 < vs.length) (k : ℕ) :
    turnTriples (vs.rotate k) = turnTriples vs := by
  unfold turnTriples
  rw [List.length_rotate, canonFwd_rotate vs hnd h k]
  by_cases hcf : canonFwd vs
  · rw [if_pos hcf, if_pos hcf]
    refine List.map_congr_left ?_
    intro k' hk'
    have e1 : ∀ j : ℕ, minFirstIdx (vs.rotate k) + k' + j =
        minFirstIdx (vs.rotate k) + (k' + j) := fun j => by omega
    have e2 : ∀ j : ℕ, minFirstIdx vs + k' + j =
        minFirstIdx vs + (k' + j) := fun j => by omega
    rw [e1 (vs.length - 1), e1 1, e2 (vs.length - 1), e2 1,
      idx_rotate_canonical vs hnd h k (k' + (vs.length - 1)),
      idx_rotate_canonical vs hnd h k k',
      idx_rotate_canonical vs hnd h k (k' + 1)]
  · rw [if_neg hcf, if_neg hcf]
    refine List.map_congr_left ?_
    intro k' hk'
    have hk'' : k' < vs.length := List.mem_range.mp hk'
    have e1 : minFirstIdx (vs.rotate k) + (vs.length - k') + 1 =
        minFirstIdx (vs.rotate k) + ((vs.length - k') + 1) := by omega
    have e2 : minFirstIdx (vs.rotate k) + (vs.length - k') - 1 =
        minFirstIdx (vs.rotate k) + ((vs.length - k') - 1) := by omega
    have e3 : minFirstIdx vs + (vs.length - k') + 1 =
        minFirstIdx vs + ((vs.length - k') + 1) := by omega
    have e4 : minFirstIdx vs + (vs.length - k') - 1 =
        minFirstIdx vs + ((vs.length - k') - 1) := by omega
    rw [e1, e2, e3, e4,
      idx_rotate_canonical vs hnd h k ((vs.length - k') + 1),
      idx_rotate_canonical vs hnd h k (vs.length - k'),
      idx_rotate_canonical vs hnd h k ((vs.length - k') - 1)]

/-- Helper: the canonical triple list is reversal-invariant (the direction
flip of `GetCanonicalFirstVertex` visits the same triples in the same
order). -/
theorem turnTriples_reverse (vs : List Pt) (hnd : vs.Nodup)
    (h3 : 3 ≤ vs.length) :
    turnTriples vs.reverse = turnTriples vs := by
  have h : 0 < vs.length := by omega
  unfold turnTriples
  rw [List.length_reverse, canonFwd_reverse vs hnd h3]
  by_cases hcf : canonFwd vs
  · -- original forward, reversed backward
    rw [hcf]
    simp only [Bool.not_true, Bool.false_eq_true, if_false, if_pos rfl]
    refine List.map_congr_left ?_
    intro k' hk'
    have hk'' : k' < vs.length := List.mem_range.mp hk'
    refine Prod.ext ?_ (Prod.ext ?_ ?_)
    · -- first component: j = (n - k') + 1
      simp only
      rcases Nat.eq_zero_or_pos k' with rfl | hk1
      · -- j = n + 1
        have e1 : minFirstIdx vs.reverse + (vs.length - 0) + 1 =
            minFirstIdx vs.reverse + (vs.length + 1) := by omega
        rw [e1, idx_reverse_canonical vs hnd h (vs.length + 1)]
        have e2 : (vs.length + 1) % vs.length = 1 := by
          rw [show vs.length + 1 = 1 + vs.length from by omega,
            Nat.add_mod_right]
          exact Nat.mod_eq_of_lt (by omega)
        rw [e2]
        apply idx_shift
        omega
      · have e1 : minFirstIdx vs.reverse + (vs.length - k') + 1 =
            minFirstIdx vs.reverse + ((vs.length - k') + 1) := by omega
        rw [e1, idx_reverse_canonical_le vs hnd h ((vs.length - k') + 1)
          (by omega)]
        apply idx_shift
        omega
    · -- middle component: j = n - k'
      simp only
      rw [idx_reverse_canonical_le vs hnd h (vs.length - k') (by omega)]
      apply idx_shift
      omega
    · -- last component: j = (n - k') - 1
      simp only
      have e1 : minFirstIdx vs.reverse + (vs.length - k') - 1 =
          minFirstIdx vs.reverse + ((vs.length - k') - 1) := by omega
      rw [e1, idx_reverse_canonical_le vs hnd h ((vs.length - k') - 1)
        (by omega)]
      apply idx_shift
      omega
  · -- original backward, reversed forward
    have hcf' : canonFwd vs = false := by
      cases hx : canonFwd vs
      · rfl
      · exact absurd hx hcf
    rw [hcf']
    simp only [Bool.not_false, if_pos rfl, Bool.false_eq_true, if_false]
    refine List.map_congr_left ?_
    intro k' hk'
    have hk'' : k' < vs.length := List.mem_range.mp hk'
    refine Prod.ext ?_ (Prod.ext ?_ ?_)
    · -- first component: j = k' + (n - 1)
      simp only
      by_cases hk2 : 2 ≤ k'
      · have e1 : minFirstIdx vs.reverse + k' + (vs.length - 1) =
            minFirstIdx vs.reverse + ((k' - 1) + vs.length) := by omega
        rw [e1, idx_reverse_canonical vs hnd h ((k' - 1) + vs.length),
          Nat.add_mod_right,
          Nat.mod_eq_of_lt (show k' - 1 < vs.length from by omega)]
        apply idx_shift
        omega
      · have e1 : minFirstIdx vs.reverse + k' + (vs.length - 1) =
            minFirstIdx vs.reverse + (k' + (vs.length - 1)) := by omega
        rw [e1, idx_reverse_canonical_le vs hnd h (k' + (vs.length - 1))
          (by omega)]
        apply idx_shift
        omega
    · -- middle component: j = k'
      simp only
      rw [idx_reverse_canonical_le vs hnd h k' (by omega)]
    · -- last component: j = k' + 1
      simp only
      have e1 : minFirstIdx vs.reverse + k' + 1 =
          minFirstIdx vs.reverse + (k' + 1) := by omega
      rw [e1, idx_reverse_canonical_le vs hnd h (k' + 1) (by omega)]
      apply idx_shift
      omega

/-- C7 (amended): for every loop whose vertex list has at least three
pairwise-distinct vertices (as loop validity requires), `GetTurningAngle`
runs the identical summation trace — the same canonical direction and the
same ordered list of `TurnAngle` argument triples — on any cyclic rotation
of the vertex list, and on the reversed list the trace differs only in the
final sign factor `dir`; hence for every interpretation `T` of the external
`TurnAngle` primitive (in particular the floating-point one, which makes
the results bit-for-bit equal rather than merely close) the result is
exactly invariant under rotation and exactly negated under reversal. -/
theorem c7_turning_angle_canonical {K : Type} [Field K]
    (T : Pt → Pt → Pt → K) (piK : K) (vs : List Pt) (oi : Bool) (k : ℕ)
    (h3 : 3 ≤ vs.length) (hnd : vs.Nodup) :
    turnTriples (vs.rotate k) = turnTriples vs ∧
    canonFwd (vs.rotate k) = canonFwd vs ∧
    turnTriples vs.reverse = turnTriples vs ∧
    canonFwd vs.reverse = !canonFwd vs ∧
    getTurningAngle T piK ⟨vs.rotate k, oi⟩ = getTurningAngle T piK ⟨vs, oi⟩ ∧
    getTurningAngle T piK ⟨vs.reverse, oi⟩ =
      -getTurningAngle T piK ⟨vs, oi⟩ := by
  have h : 0 < vs.length := by omega
  have ht1 := turnTriples_rotate vs hnd h k
  have ht2 := canonFwd_rotate vs hnd h k
  have ht3 := turnTriples_reverse vs hnd h3
  have ht4 := canonFwd_reverse vs hnd h3
  have hne1 : ¬vs.length = 1 := by omega
  have hne3 : ¬vs.length < 3 := by omega
  refine ⟨ht1, ht2, ht3, ht4, ?_, ?_⟩
  · unfold getTurningAngle
    simp only [List.length_rotate, if_neg hne1, if_neg hne3, ht1, ht2]
  · unfold getTurningAngle
    simp only [List.length_reverse, if_neg hne1, if_neg hne3, ht3, ht4]
    rcases hcf : canonFwd vs with _ | _ <;> simp [hcf] <;> ring

end TurningThm

/-- C7 counterexample: the empty sentinel loop (one vertex, z ≥ 0,
`origin_inside` false) is unchanged by reversal of its vertex list, yet its
turning angle is +2π and not −(+2π): "exactly negated under reversal of the
vertex list" fails for the one-vertex sentinel loops, so the claim's
universal quantifier over every loop is too strong. -/
theorem c7_counterexample :
    ¬ (getTurningAngle (fun _ _ _ => (0 : ℝ)) Real.pi
        ⟨([0] : List ℕ).reverse, false⟩ =
      -getTurningAngle (fun _ _ _ => (0 : ℝ)) Real.pi ⟨[0], false⟩) := by
  intro hEq
  rw [show ([0] : List ℕ).reverse = [0] from rfl] at hEq
  unfold getTurningAngle at hEq
  simp at hEq
  nlinarith [Real.pi_pos, hEq]

/-- C7 witness: the amended theorem at a concrete 3-vertex loop over ℚ,
with an arbitrary turn-angle interpretation. -/
theorem c7_witness :
    getTurningAngle (fun a b c => (a * 100 + b * 10 + c : ℚ)) 3
        ⟨([5, 1, 9] : List ℕ).rotate 2, false⟩ =
      getTurningAngle (fun a b c => (a * 100 + b * 10 + c : ℚ)) 3
        ⟨[5, 1, 9], false⟩ ∧
    getTurningAngle (fun a b c => (a * 100 + b * 10 + c : ℚ)) 3
        ⟨([5, 1, 9] : List ℕ).reverse, false⟩ =
      -getTurningAngle (fun a b c => (a * 100 + b * 10 + c : ℚ)) 3
        ⟨[5, 1, 9], false⟩ :=
  ⟨(c7_turning_angle_canonical (fun a b c => (a * 100 + b * 10 + c : ℚ)) 3
      [5, 1, 9] false 2 (by decide) (by decide)).2.2.2.2.1,
   (c7_turning_angle_canonical (fun a b c => (a * 100 + b * 10 + c : ℚ)) 3
      [5, 1, 9] false 2 (by decide) (by decide)).2.2.2.2.2⟩

/-! ### Inversion -/

section InvertThm

variable {Pt K : Type} [LinearOrderedField K]

/-- Helper: inverting the canonical empty sentinel gives the canonical full
sentinel with full bounds, whatever the external geometry. -/
theorem invert_empty_sentinel (piK : K) (rawBound : List Pt → Bool → GeoRect K)
    (expandSub : GeoRect K → GeoRect K) (emptyV fullV : Pt) :
    invert piK rawBound expandSub emptyV fullV
      ⟨[emptyV], false, emptyRect piK, emptyRect piK⟩ =
      ⟨[fullV], true, fullRect piK, fullRect piK⟩ := by
  unfold invert
  dsimp only
  by_cases hc : -(piK / 2) < (emptyRect piK : GeoRect K).latLo ∧
      (emptyRect piK : GeoRect K).latHi < piK / 2
  · rw [if_pos hc]
    simp
  · rw [if_neg hc]
    simp [initBoundPair]

/-- Helper: inverting the canonical full sentinel gives the canonical empty
sentinel with empty bounds. -/
theorem invert_full_sentinel (piK : K) (rawBound : List Pt → Bool → GeoRect K)
    (expandSub : GeoRect K → GeoRect K) (emptyV fullV : Pt) :
    invert piK rawBound expandSub emptyV fullV
      ⟨[fullV], true, fullRect piK, fullRect piK⟩ =
      ⟨[emptyV], false, emptyRect piK, emptyRect piK⟩ := by
  unfold invert
  dsimp only
  rw [if_neg (fun hcon => lt_irrefl _ hcon.1)]
  simp [initBoundPair]

/-- C8 (amended): for every loop whose stored bounds are the ones
`InitBound` computes (as `Init`, `Decode` and `Invert` establish), whose
sentinel vertex, if any, is the canonical one (`kEmptyVertex` or
`kFullVertex`), and whose external bound geometry is coherent — the
recomputed bound of the reversed loop is strictly pole-free only when the
original bound is full, and expanding the full rectangle gives the full
rectangle — applying `Invert` twice restores the loop exactly: vertex
sequence, `origin_inside`, bound and subregion bound.  (For a sentinel
whose single vertex is not one of the two canonical sentinel vertices the
vertex sequence is NOT restored bitwise; see the counterexample.) -/
theorem c8_invert_invert (piK : K) (rawBound : List Pt → Bool → GeoRect K)
    (expandSub : GeoRect K → GeoRect K) (emptyV fullV : Pt) (L : GeoLoop Pt K)
    (hb : (L.bound, L.subregionBound) =
      initBoundPair piK rawBound expandSub L.vertices L.originInside)
    (hsent : L.vertices.length = 1 →
      L.vertices = [if L.originInside then fullV else emptyV])
    (hexp : expandSub (fullRect piK) = fullRect piK)
    (hgeo : -(piK / 2) < (rawBound L.vertices.reverse (!L.originInside)).latLo ∧
        (rawBound L.vertices.reverse (!L.originInside)).latHi < piK / 2 →
      rawBound L.vertices L.originInside = fullRect piK) :
    invert piK rawBound expandSub emptyV fullV
      (invert piK rawBound expandSub emptyV fullV L) = L := by
  obtain ⟨vs, oi, bd, sbd⟩ := L
  simp only at hb hsent hgeo
  by_cases hlen : vs.length = 1
  · -- sentinel case: the canonical vertex swap applied twice
    have hvs := hsent hlen
    cases oi
    · simp only [Bool.false_eq_true, if_false] at hvs
      subst hvs
      have hini : initBoundPair piK rawBound expandSub [emptyV] false =
          (emptyRect piK, emptyRect piK) := by
        simp [initBoundPair]
      rw [hini] at hb
      injection hb with hb1 hb2
      subst hb1
      subst hb2
      rw [invert_empty_sentinel, invert_full_sentinel]
    · simp only [if_true] at hvs
      subst hvs
      have hini : initBoundPair piK rawBound expandSub [fullV] true =
          (fullRect piK, fullRect piK) := by
        simp [initBoundPair]
      rw [hini] at hb
      injection hb with hb1 hb2
      subst hb1
      subst hb2
      rw [invert_full_sentinel, invert_empty_sentinel]
  · -- proper loop: reversal applied twice
    have hb1 : bd = rawBound vs oi := by
      have := congrArg Prod.fst hb
      simpa [initBoundPair, hlen] using this
    have hb2 : sbd = expandSub (rawBound vs oi) := by
      have := congrArg Prod.snd hb
      simpa [initBoundPair, hlen] using this
    have hlenr : ¬vs.reverse.length = 1 := by
      rw [List.length_reverse]; exact hlen
    unfold invert
    dsimp only
    rw [if_neg hlen]
    by_cases hc1 : -(piK / 2) < bd.latLo ∧ bd.latHi < piK / 2
    · rw [if_pos hc1]
      dsimp only
      rw [if_neg hlenr]
      rw [if_neg (fun hcon => lt_irrefl _ hcon.1)]
      rw [hb1, hb2]
      simp [initBoundPair, hlen]
    · rw [if_neg hc1]
      dsimp only
      rw [if_neg hlenr]
      simp only [List.reverse_reverse, Bool.not_not, initBoundPair,
        if_neg hlenr]
      by_cases hc2 : -(piK / 2) < (rawBound vs.reverse !oi).latLo ∧
          (rawBound vs.reverse !oi).latHi < piK / 2
      · rw [if_pos hc2]
        have hfull := hgeo hc2
        rw [hb1, hfull, hb2, hfull, hexp]
      · rw [if_neg hc2]
        rw [hb1, hb2]
        simp [initBoundPair, hlen]

end InvertThm

/-- C8 counterexample: an empty sentinel loop whose single vertex is not
the canonical `kEmptyVertex` (in the code, any unit vector with z ≥ 0 forms
an empty loop — for instance (1,0,0)).  Inverting twice replaces the vertex
by `kFullVertex` and then by `kEmptyVertex`, so the original vertex
sequence is NOT restored bitwise, refuting the unconditional claim.  Here
the vertices are abstracted as 0 = `kEmptyVertex`, 1 = `kFullVertex`,
2 = the non-canonical sentinel vertex, and the loop's stored bounds are
exactly what `InitBound` computes for an empty sentinel. -/
theorem c8_counterexample :
    (invert Real.pi (fun _ _ => emptyRect Real.pi) id (0 : ℕ) 1
      (invert Real.pi (fun _ _ => emptyRect Real.pi) id (0 : ℕ) 1
        ⟨[2], false, emptyRect Real.pi, emptyRect Real.pi⟩)).vertices ≠
      [2] := by
  have hpi := Real.pi_pos
  have h1 : invert Real.pi (fun _ _ => emptyRect Real.pi) id (0 : ℕ) 1
      ⟨[2], false, emptyRect Real.pi, emptyRect Real.pi⟩ =
      ⟨[1], true, fullRect Real.pi, fullRect Real.pi⟩ := by
    unfold invert
    simp only [List.length_singleton, if_pos rfl, Bool.false_eq_true,
      if_false, Bool.not_false]
    rw [if_pos (by constructor <;> simp [emptyRect] <;> nlinarith)]
    simp
  rw [h1]
  unfold invert
  simp only [List.length_singleton, if_pos rfl, if_true, Bool.not_true]
  rw [if_neg (by simp [fullRect])]
  simp

/-- C8 witness: the amended theorem at a concrete 3-vertex loop over ℚ with
a constant full raw bound. -/
theorem c8_witness :
    invert (4 : ℚ) (fun _ _ => fullRect 4) id (0 : ℕ) 1
      (invert (4 : ℚ) (fun _ _ => fullRect 4) id (0 : ℕ) 1
        ⟨[0, 1, 2], false, fullRect 4, fullRect 4⟩) =
      ⟨[0, 1, 2], false, fullRect 4, fullRect 4⟩ :=
  c8_invert_invert 4 (fun _ _ => fullRect 4) id 0 1
    ⟨[0, 1, 2], false, fullRect 4, fullRect 4⟩
    (by simp [initBoundPair])
    (by decide)
    rfl
    (fun hcon => absurd hcon.1 (lt_irrefl _))

end S2Spec
